import Mathlib

/-!
# loadtest: a filesystem load generator

A shallow embedding of `loadtest.go`.  Every call that leaves the program
(the random source, the filesystem, a goroutine start, a log line) is recorded
as an `Event` in a chronological trace, and answered by an oracle of the
`World` that sees the whole trace so far.  Quantifying over all worlds ranges
over every behaviour of the environment, including one that changes while the
program runs.
-/

namespace Loadtest

/-! ## Data model -/

/-- Go `error` values: one produced by the environment, or one built by
`fmt.Errorf` from a format, its string arguments and (for `%v`) a cause. -/
inductive Err where
  | os (msg : String)
  | errorf (format : String) (args : List String)
  | errorfWrap (format : String) (args : List String) (cause : Err)
  deriving DecidableEq, Repr

/-- How a call ends: a normal return with a value, a returned error, a
run-time panic, or no return at all within the step budget. -/
inductive Res (α : Type) where
  | ok (a : α)
  | err (e : Err)
  | panic
  | outOfFuel
  deriving DecidableEq, Repr

/-- One entry of a directory listing (`os.FileInfo`): its name and `IsDir()`. -/
structure DirEntry where
  name : String
  isDir : Bool
  deriving DecidableEq, Repr

/-- What the goroutine started by `cleanup` was given: its `threadnum` and
its `filePath`. -/
structure Deleter where
  threadnum : Nat
  filePath : String
  deriving DecidableEq, Repr

/-- Calls that leave the program, each with the answer it received. -/
inductive Event where
  /-- Call `rand.Int(rand.Reader, max)`; `r` is the drawn value, `none` on error. -/
  | randInt (max : Nat) (r : Option Nat)
  /-- Call `rand.Read(buffer)` with `len(buffer) = len`. -/
  | randRead (len : Nat) (e : Option Err)
  /-- Call `os.MkdirAll(path, 0777)`. -/
  | mkdirAll (path : String) (e : Option Err)
  /-- Call `os.Create(path)`. -/
  | create (path : String) (e : Option Err)
  /-- Call `f.Write(buffer)` on the file opened at `path`, `len(buffer) = len`,
  reporting `n` bytes written. -/
  | write (path : String) (len : Nat) (n : Nat) (e : Option Err)
  /-- Call `f.Close()`; `none` is the nil handle. -/
  | close (handle : Option String)
  /-- Call `ioutil.ReadDir(path)`; `ok` is false when it returned an error. -/
  | readDir (path : String) (ok : Bool)
  /-- Call `os.Remove(path)`. -/
  | remove (path : String) (e : Option Err)
  /-- Call `os.RemoveAll(path)`. -/
  | removeAll (path : String) (e : Option Err)
  /-- Call `wg.Add(1)`. -/
  | wgAdd
  /-- Call `wg.Done()`. -/
  | wgDone
  /-- Statement `go func() { ... }()` of `cleanup`. -/
  | goDeleter (d : Deleter)
  /-- Call `fmt.Printf(format, args...)`. -/
  | printf (format : String) (args : List String)
  deriving DecidableEq, Repr

/-- The trace of a run, oldest event first. -/
abbrev Trace := List Event

/-- The environment: each oracle answers one kind of call, given the trace so
far and the call's arguments.  `join` is `filepath.Join` on two elements. -/
structure World where
  randInt : Trace → Nat → Except Err Nat
  randRead : Trace → Nat → Option Err
  mkdirAll : Trace → String → Option Err
  create : Trace → String → Option Err
  write : Trace → String → Nat → Nat × Option Err
  readDir : Trace → String → Except Err (List DirEntry)
  remove : Trace → String → Option Err
  removeAll : Trace → String → Option Err
  join : String → String → String

/-! ## Constants and helpers of `loadtest.go` -/

def fileNameLen : Int := 10

def bufferSize : Int := 4096

def charSet : List Char :=
  "ABCDEFGHIJKLMNOPQRSTUVWXYZabcdefghijklmnopqrstuvwxyz".toList

def min (a b : Int) : Int :=
  if a < b then a else b

/-! ## `randomString` -/

/-- The loop `for i := 0; i < length; i++` of `randomString` with `k`
iterations left; `sb` is the content of the string builder. -/
def randomStringLoop (w : World) : Nat → List Char → Trace → Res String × Trace
  | 0, sb, tr => (.ok (String.mk sb), tr)
  | k + 1, sb, tr =>
    match w.randInt tr charSet.length with
    | .error e =>
      (.err (.errorfWrap "failed to generate random character: %v" [] e),
        tr ++ [.randInt charSet.length none])
    | .ok n =>
      match charSet[n]? with
      | none => (.panic, tr ++ [.randInt charSet.length (some n)])
      | some c =>
        randomStringLoop w k (sb ++ [c]) (tr ++ [.randInt charSet.length (some n)])

/-- `randomString(length)`: the loop runs `length` times, none when
`length ≤ 0`. -/
def randomString (w : World) (length : Int) (tr : Trace) : Res String × Trace :=
  randomStringLoop w length.toNat [] tr

/-! ## `writeRandomFile` -/

/-- The loop `for bytesRemaining > 0` of `writeRandomFile`.  `fuel` bounds the
number of iterations that are followed; `path` is where `f` was opened.  Inside
the loop `bytesRemaining` is positive and the count `n` is not negative, so the
subtraction stays within the 64 bits of a Go `int` and `Int` computes it
exactly. -/
def writeLoop (w : World) (fileName path : String) : Nat → Int → Trace → Res Unit × Trace
  | 0, bytesRemaining, tr =>
    if bytesRemaining > 0 then (.outOfFuel, tr) else (.ok (), tr)
  | fuel + 1, bytesRemaining, tr =>
    if bytesRemaining > 0 then
      let len := (min bufferSize bytesRemaining).toNat
      match w.randRead tr len with
      | some e =>
        (.err (.errorfWrap "failed to read random bytes: %v" [] e),
          tr ++ [.randRead len (some e)])
      | none =>
        match w.write (tr ++ [.randRead len none]) path len with
        | (n, some e) =>
          (.err (.errorfWrap "failed to write bytes to file %q: %v" [fileName] e),
            tr ++ [.randRead len none, .write path len n (some e)])
        | (n, none) =>
          writeLoop w fileName path fuel (bytesRemaining - n)
            (tr ++ [.randRead len none, .write path len n none])
    else (.ok (), tr)

/-- The statements of `writeRandomFile` that follow `defer f.Close()`: the
check of the error of `os.Create`, then the write loop. -/
def writeRandomFileBody (w : World) (fuel : Nat) (fileName path : String)
    (createErr : Option Err) (fileSize : Int) (tr : Trace) : Res Unit × Trace :=
  match createErr with
  | some e => (.err (.errorfWrap "failed to create file %q: %v" [fileName] e), tr)
  | none => writeLoop w fileName path fuel fileSize tr

/-- `writeRandomFile(testDir, fileSize)`.  The deferred `f.Close()` runs when
the function returns, on the handle `os.Create` gave: nil when it failed. -/
def writeRandomFile (w : World) (fuel : Nat) (testDir : String) (fileSize : Int)
    (tr : Trace) : Res Unit × Trace :=
  match randomString w fileNameLen tr with
  | (.err e, tr1) => (.err (.errorfWrap "failed to generate file name: %v" [] e), tr1)
  | (.panic, tr1) => (.panic, tr1)
  | (.outOfFuel, tr1) => (.outOfFuel, tr1)
  | (.ok fileName, tr1) =>
    let path := w.join testDir fileName
    let createErr := w.create tr1 path
    let f : Option String := if createErr.isNone then some path else none
    match writeRandomFileBody w fuel fileName path createErr fileSize
        (tr1 ++ [.create path createErr]) with
    | (.outOfFuel, tr2) => (.outOfFuel, tr2)
    | (.ok u, tr2) => (.ok u, tr2 ++ [.close f])
    | (.err e, tr2) => (.err e, tr2 ++ [.close f])
    | (.panic, tr2) => (.panic, tr2 ++ [.close f])

/-! ## `writer` -/

/-- The first statements of `writer`: the directory the files go to. -/
def writerDirPath (w : World) (testDir : String) (createDir : Bool) (tr : Trace) :
    Res String × Trace :=
  if createDir then
    match randomString w fileNameLen tr with
    | (.ok dirName, tr1) => (.ok (w.join testDir dirName), tr1)
    | (.err e, tr1) => (.err (.errorfWrap "failed to generate directory name: %v" [] e), tr1)
    | (.panic, tr1) => (.panic, tr1)
    | (.outOfFuel, tr1) => (.outOfFuel, tr1)
  else (.ok testDir, tr)

/-- The loop `for i := 0; i < numFiles; i++` of `writer`, `k` iterations left. -/
def writerLoop (w : World) (fuel : Nat) (dirPath : String) (fileSize : Int) :
    Nat → Trace → Res Unit × Trace
  | 0, tr => (.ok (), tr)
  | k + 1, tr =>
    match writeRandomFile w fuel dirPath fileSize tr with
    | (.ok _, tr1) => writerLoop w fuel dirPath fileSize k tr1
    | (.err e, tr1) => (.err e, tr1)
    | (.panic, tr1) => (.panic, tr1)
    | (.outOfFuel, tr1) => (.outOfFuel, tr1)

/-- `writer(testDir, fileSize, numFiles, createDir)`. -/
def writer (w : World) (fuel : Nat) (testDir : String) (fileSize numFiles : Int)
    (createDir : Bool) (tr : Trace) : Res Unit × Trace :=
  match writerDirPath w testDir createDir tr with
  | (.err e, tr1) => (.err e, tr1)
  | (.panic, tr1) => (.panic, tr1)
  | (.outOfFuel, tr1) => (.outOfFuel, tr1)
  | (.ok dirPath, tr1) =>
    match w.mkdirAll tr1 dirPath with
    | some e =>
      (.err (.errorfWrap "failed to create directory %q: %v" [dirPath] e),
        tr1 ++ [.mkdirAll dirPath (some e)])
    | none =>
      writerLoop w fuel dirPath fileSize numFiles.toNat (tr1 ++ [.mkdirAll dirPath none])

/-! ## `recursiveListDir` and `reader` -/

/-- The loop `for _, f := range files` of `recursiveListDir`; `recurse` is the
recursive call. -/
def listLoop (w : World) (recurse : String → Trace → Res Unit × Trace) (dir : String) :
    List DirEntry → Trace → Res Unit × Trace
  | [], tr => (.ok (), tr)
  | f :: rest, tr =>
    if f.isDir then
      match recurse (w.join dir f.name) tr with
      | (.ok _, tr1) => listLoop w recurse dir rest tr1
      | (.err e, tr1) => (.err e, tr1)
      | (.panic, tr1) => (.panic, tr1)
      | (.outOfFuel, tr1) => (.outOfFuel, tr1)
    else listLoop w recurse dir rest tr

/-- `recursiveListDir(dir)`; `fuel` bounds the depth of the recursion. -/
def recursiveListDir (w : World) : Nat → String → Trace → Res Unit × Trace
  | 0, _, tr => (.outOfFuel, tr)
  | fuel + 1, dir, tr =>
    match w.readDir tr dir with
    | .error _ =>
      (.err (.errorf "failed to read files in directory %q" [dir]), tr ++ [.readDir dir false])
    | .ok files =>
      listLoop w (recursiveListDir w fuel) dir files (tr ++ [.readDir dir true])

/-- The loop `for i := 0; i < readsPerThread; i++` of `reader`, `k` iterations
left. -/
def readerLoop (w : World) (fuel : Nat) (testDir : String) : Nat → Trace → Res Unit × Trace
  | 0, tr => (.ok (), tr)
  | k + 1, tr =>
    match recursiveListDir w fuel testDir tr with
    | (.ok _, tr1) => readerLoop w fuel testDir k tr1
    | (.err e, tr1) => (.err e, tr1)
    | (.panic, tr1) => (.panic, tr1)
    | (.outOfFuel, tr1) => (.outOfFuel, tr1)

/-- `reader(testDir, readsPerThread)`. -/
def reader (w : World) (fuel : Nat) (testDir : String) (readsPerThread : Int) (tr : Trace) :
    Res Unit × Trace :=
  readerLoop w fuel testDir readsPerThread.toNat tr

/-! ## `cleanup` -/

/-- The body of the goroutine that `cleanup` starts for a directory. -/
def deleterBody (w : World) (d : Deleter) (tr : Trace) : Trace :=
  match w.removeAll tr d.filePath with
  | some e =>
    tr ++ [.removeAll d.filePath (some e),
      .printf "failed to recursively delete %q" [d.filePath],
      .printf "deleter thread %d finished\n" [toString d.threadnum], .wgDone]
  | none =>
    tr ++ [.removeAll d.filePath none,
      .printf "deleter thread %d finished\n" [toString d.threadnum], .wgDone]

/-- The loop `for i, f := range files` of `cleanup`, at index `i`. -/
def cleanupLoop (w : World) (testPath : String) : List DirEntry → Nat → Trace → Trace
  | [], _, tr => tr
  | f :: rest, i, tr =>
    let filePath := w.join testPath f.name
    if !f.isDir then
      match w.remove tr filePath with
      | some e =>
        cleanupLoop w testPath rest (i + 1)
          (tr ++ [.remove filePath (some e), .printf "failed to delete file %q" [filePath]])
      | none => cleanupLoop w testPath rest (i + 1) (tr ++ [.remove filePath none])
    else
      cleanupLoop w testPath rest (i + 1) (tr ++ [.wgAdd, .goDeleter ⟨i, filePath⟩])

/-- `cleanup(testPath, wg)`, up to its return; the goroutines it starts run
`deleterBody`. -/
def cleanup (w : World) (testPath : String) (tr : Trace) : Res Unit × Trace :=
  match w.readDir tr testPath with
  | .error _ =>
    (.err (.errorf "failed to read files in directory %q" [testPath]),
      tr ++ [.readDir testPath false])
  | .ok files => (.ok (), cleanupLoop w testPath files 0 (tr ++ [.readDir testPath true]))

/-! ## A concrete world -/

/-- A small tree: `base` holds a file `f`, a directory `a` holding a file `g`,
and an empty directory `b`. -/
def demoReadDir (p : String) : Except Err (List DirEntry) :=
  if p = "base" then .ok [⟨"f", false⟩, ⟨"a", true⟩, ⟨"b", true⟩]
  else if p = "base/a" then .ok [⟨"g", false⟩]
  else if p = "base/b" then .ok []
  else .error (.os "no such file or directory")

/-- A world where every call succeeds, the draws cycle through the alphabet
and a write takes the whole buffer. -/
def demoWorld : World where
  randInt tr _ := .ok (tr.length % 52)
  randRead _ _ := none
  mkdirAll _ _ := none
  create _ _ := none
  write _ _ len := (len, none)
  readDir _ p := demoReadDir p
  remove _ _ := none
  removeAll _ _ := none
  join d n := d ++ "/" ++ n

/-! ## Reading a trace -/

/-- The events of a run of successful draws. -/
def drawEvents (draws : List Nat) : Trace :=
  draws.map (fun d => Event.randInt charSet.length (some d))

/-- The characters the alphabet gives for a run of draws, `none` for a draw
outside it. -/
def drawnChars (draws : List Nat) : List (Option Char) :=
  draws.map (fun d => charSet[d]?)

def Event.isRandInt : Event → Bool
  | .randInt _ _ => true
  | _ => false

def Event.isWrite : Event → Bool
  | .write _ _ _ _ => true
  | _ => false

def Event.isCreate : Event → Bool
  | .create _ _ => true
  | _ => false

def Event.isMkdirAll : Event → Bool
  | .mkdirAll _ _ => true
  | _ => false

def Event.isClose : Event → Bool
  | .close _ => true
  | _ => false

def Event.isReadDir : Event → Bool
  | .readDir _ _ => true
  | _ => false

/-- The byte count a write call reported, 0 for any other event. -/
def Event.written : Event → Nat
  | .write _ _ n _ => n
  | _ => 0

/-- The sum of the byte counts reported by the write calls of a trace. -/
def bytesWritten (evs : Trace) : Nat :=
  (evs.map Event.written).sum

/-- The error of a failed file creation or of a failed write, `none` for any
other event. -/
def Event.fileFailure : Event → Option Err
  | .create _ (some e) => some e
  | .write _ _ _ (some e) => some e
  | _ => none

/-- The events of one run of the write loop on the file opened at `path`, from
`bytesRemaining` bytes to go, with how the loop ended. -/
inductive LoopRun (w : World) (fileName path : String) : Int → Trace → Res Unit → Prop where
  | done {bytesRemaining : Int} (h : ¬ bytesRemaining > 0) :
    LoopRun w fileName path bytesRemaining [] (.ok ())
  | fuelOut {bytesRemaining : Int} (h : bytesRemaining > 0) :
    LoopRun w fileName path bytesRemaining [] .outOfFuel
  | randFail {bytesRemaining : Int} {e : Err} (h : bytesRemaining > 0) :
    LoopRun w fileName path bytesRemaining
      [.randRead (min bufferSize bytesRemaining).toNat (some e)]
      (.err (.errorfWrap "failed to read random bytes: %v" [] e))
  | writeFail {bytesRemaining : Int} {n : Nat} {e : Err} (h : bytesRemaining > 0) :
    LoopRun w fileName path bytesRemaining
      [.randRead (min bufferSize bytesRemaining).toNat none,
        .write path (min bufferSize bytesRemaining).toNat n (some e)]
      (.err (.errorfWrap "failed to write bytes to file %q: %v" [fileName] e))
  | step {bytesRemaining : Int} {n : Nat} {evs : Trace} {r : Res Unit}
    (h : bytesRemaining > 0)
    (hn : ∃ tr, w.write tr path (min bufferSize bytesRemaining).toNat = (n, none))
    (rest : LoopRun w fileName path (bytesRemaining - n) evs r) :
    LoopRun w fileName path bytesRemaining
      (.randRead (min bufferSize bytesRemaining).toNat none ::
        .write path (min bufferSize bytesRemaining).toNat n none :: evs) r

/-- Walks a trace from `bytesRemaining` bytes to go and checks, at every write
call, that bytes remain and that the buffer is `min(bufferSize, bytesRemaining)`
long. -/
def buffersOk : Int → Trace → Bool
  | _, [] => true
  | bytesRemaining, .write _ len n _ :: es =>
    decide (0 < bytesRemaining) && decide ((len : Int) = min bufferSize bytesRemaining) &&
      buffersOk (bytesRemaining - n) es
  | bytesRemaining, _ :: es => buffersOk bytesRemaining es

/-- The world `demoWorld` with a filesystem that refuses to create files. -/
def noCreateWorld : World :=
  { demoWorld with create := fun _ _ => some (.os "permission denied") }

/-- A successful creation of a file named by ten letters of the alphabet in
the directory `D`. -/
def GoodCreate (w : World) (D : String) (e : Event) : Prop :=
  ∃ name : String, name.length = 10 ∧ (∀ c ∈ name.toList, c ∈ charSet) ∧
    e = .create (w.join D name) none

/-- The result `r` is the error `writeRandomFile` builds when the event `e`,
on a file of `D`, is a creation or a write that failed with `err`. -/
def ReturnsFailureOf (w : World) (D : String) (e : Event) (err : Err) (r : Res Unit) : Prop :=
  ∃ name : String,
    (e = .create (w.join D name) (some err) ∧
      r = .err (.errorfWrap "failed to create file %q: %v" [name] err)) ∨
    ((∃ l n, e = .write (w.join D name) l n (some err)) ∧
      r = .err (.errorfWrap "failed to write bytes to file %q: %v" [name] err))

/-- Either no creation and no write of the trace failed, or the trace ends
with the one that failed, followed by the deferred close alone, and the result
is its error. -/
def EndsAtFailure (w : World) (D : String) (evs : Trace) (r : Res Unit) : Prop :=
  (∀ e ∈ evs, e.fileFailure = none) ∨
  ∃ pre e h err, evs = pre ++ [e, .close h] ∧ (∀ x ∈ pre, x.fileFailure = none) ∧
    e.fileFailure = some err ∧ ReturnsFailureOf w D e err r

/-! ## Directory trees -/

/-- The content of a directory: its entries in listing order, each a file or a
directory with its own content. -/
inductive Forest where
  | nil
  | file (name : String) (rest : Forest)
  | dir (name : String) (kids : Forest) (rest : Forest)
  deriving DecidableEq, Repr

/-- What a listing of a directory with this content returns. -/
def Forest.entries : Forest → List DirEntry
  | .nil => []
  | .file name rest => ⟨name, false⟩ :: rest.entries
  | .dir name _ rest => ⟨name, true⟩ :: rest.entries

/-- The number of levels of directories below a directory with this content. -/
def Forest.depth : Forest → Nat
  | .nil => 0
  | .file _ rest => rest.depth
  | .dir _ kids rest => max (kids.depth + 1) rest.depth

/-- The paths of the directories nested under `dir`, each before its own
content, in listing order. -/
def subPaths (join : String → String → String) (dir : String) : Forest → List String
  | .nil => []
  | .file _ rest => subPaths join dir rest
  | .dir name kids rest =>
    join dir name :: (subPaths join (join dir name) kids ++ subPaths join dir rest)

/-- The paths of all the directories of the tree rooted at `dir`: the root and
every directory nested under it, once each. -/
def dirPaths (join : String → String → String) (dir : String) (t : Forest) : List String :=
  dir :: subPaths join dir t

/-- Every directory nested under `dir` can be listed, at any time, and the
listing is its content in the tree. -/
def subdirsListed (w : World) (dir : String) : Forest → Prop
  | .nil => True
  | .file _ rest => subdirsListed w dir rest
  | .dir name kids rest =>
    (∀ h, w.readDir h (w.join dir name) = .ok kids.entries) ∧
      subdirsListed w (w.join dir name) kids ∧ subdirsListed w dir rest

/-- The world holds the tree `t` at `dir` and does not change it: every
directory of the tree can be listed, at any time, and the listing is its
content in the tree. -/
def Realises (w : World) (dir : String) (t : Forest) : Prop :=
  (∀ h, w.readDir h dir = .ok t.entries) ∧ subdirsListed w dir t

/-- The events of successful listings of the given directories. -/
def listEvents (paths : List String) : Trace :=
  paths.map (fun p => Event.readDir p true)

/-- The tree that `demoWorld` holds at `base`. -/
def demoTree : Forest :=
  .file "f" (.dir "a" (.file "g" .nil) (.dir "b" .nil .nil))

/-- The trace of a run that lists directories with success until, possibly, a
listing fails, in which case it ends there and `r` is the error for it. -/
def EndsAtFailedListing (evs : Trace) (r : Res Unit) : Prop :=
  ((∀ e ∈ evs, ∃ p, e = .readDir p true) ∧ ∀ e, r ≠ .err e) ∨
  ∃ pre p, evs = pre ++ [.readDir p false] ∧ (∀ e ∈ pre, ∃ q, e = .readDir q true) ∧
    r = .err (.errorf "failed to read files in directory %q" [p])

/-! ## Reading the trace of `cleanup` -/

/-- The path of a call of `os.Remove`. -/
def Event.removedPath : Event → Option String
  | .remove p _ => some p
  | _ => none

/-- The goroutine a `go` statement of `cleanup` started. -/
def Event.spawned : Event → Option Deleter
  | .goDeleter d => some d
  | _ => none

def Event.isPrintf : Event → Bool
  | .printf _ _ => true
  | _ => false

/-- Runs of `cleanup` in succession, `k` of them, each on the trace the one
before left; the results come in order. -/
def cleanupRuns (w : World) (testPath : String) : Nat → Trace → List (Res Unit) × Trace
  | 0, tr => ([], tr)
  | k + 1, tr =>
    ((cleanup w testPath tr).1 :: (cleanupRuns w testPath k (cleanup w testPath tr).2).1,
      (cleanupRuns w testPath k (cleanup w testPath tr).2).2)

/-- The world `demoWorld` with a filesystem that refuses to remove files. -/
def noRemoveWorld : World :=
  { demoWorld with remove := fun _ _ => some (.os "permission denied") }

/-! ## `main`: the goroutines and the `WaitGroup` -/

/-- The command-line flags of `main`. -/
structure Flags where
  numWriters : Int
  numReaders : Int
  testPath : String
  fileSize : Int
  filesPerThread : Int
  readsPerThread : Int
  deleteFiles : Bool
  createDirs : Bool

/-- A goroutine: started by `startWriters`, by `startReaders` or by `cleanup`,
with the `threadnum` it captured. -/
inductive Task where
  | writer (threadnum : Nat)
  | reader (threadnum : Nat)
  | deleter (d : Deleter)
  deriving DecidableEq, Repr

/-- The goroutines of the load phase. -/
def Task.isLoad : Task → Bool
  | .deleter _ => false
  | _ => true

/-- Where the main goroutine stands in `main`. -/
inductive Pc where
  /-- At the head of the loop of `startWriters`, with counter `i`. -/
  | startWriters (i : Nat)
  /-- At the head of the loop of `startReaders`, with counter `i`. -/
  | startReaders (i : Nat)
  /-- At the first `wg.Wait()`. -/
  | waitLoad
  /-- At `if !*deleteFiles`. -/
  | checkDelete
  /-- Inside `cleanup`, with the calls it has still to make. -/
  | inCleanup (pending : Trace)
  /-- At the second `wg.Wait()`. -/
  | waitDeleters
  /-- Returned from `main`: the process is over. -/
  | exited
  deriving DecidableEq, Repr

/-- What is observed of a run of the whole program. -/
inductive Obs where
  /-- A `go` statement started the goroutine. -/
  | spawn (t : Task)
  /-- The goroutine finished: its deferred `wg.Done()` ran. -/
  | done (t : Task)
  /-- A `wg.Wait()` of `main` returned. -/
  | waitReturned
  /-- Line `err = cleanup(*testPath, &wg)` of `main` was reached. -/
  | cleanupCalled
  /-- Function `main` returned. -/
  | exit
  deriving DecidableEq, Repr

/-- The state of the process: the place of the main goroutine, the counter of
the `WaitGroup`, the goroutines started and not finished, and the
observations so far, oldest first. -/
structure MainState where
  pc : Pc
  wg : Int
  running : List Task
  log : List Obs
  deriving DecidableEq, Repr

/-- What the scheduler lets happen next: a step of the main goroutine, or the
end of the `i`-th goroutine still running. -/
inductive Action where
  | main
  | finish (i : Nat)
  deriving DecidableEq, Repr

/-- The state in which `main` starts, `var wg sync.WaitGroup` included. -/
def MainState.initial : MainState :=
  ⟨.startWriters 0, 0, [], []⟩

/-- One step of the main goroutine; `none` when it is blocked in `wg.Wait()`
or has returned. -/
def mainStep (fl : Flags) (w : World) (s : MainState) : Option MainState :=
  match s.pc with
  | .startWriters i =>
    if (i : Int) < fl.numWriters then
      some { s with pc := .startWriters (i + 1), wg := s.wg + 1,
                    running := s.running ++ [.writer i],
                    log := s.log ++ [.spawn (.writer i)] }
    else some { s with pc := .startReaders 0 }
  | .startReaders i =>
    if (i : Int) < fl.numReaders then
      some { s with pc := .startReaders (i + 1), wg := s.wg + 1,
                    running := s.running ++ [.reader i],
                    log := s.log ++ [.spawn (.reader i)] }
    else some { s with pc := .waitLoad }
  | .waitLoad =>
    if s.wg = 0 then some { s with pc := .checkDelete, log := s.log ++ [.waitReturned] }
    else none
  | .checkDelete =>
    if !fl.deleteFiles then some { s with pc := .exited, log := s.log ++ [.exit] }
    else
      some { s with pc := .inCleanup (cleanup w fl.testPath []).2,
                    log := s.log ++ [.cleanupCalled] }
  | .inCleanup [] => some { s with pc := .waitDeleters }
  | .inCleanup (.wgAdd :: pending) =>
    some { s with pc := .inCleanup pending, wg := s.wg + 1 }
  | .inCleanup (.goDeleter d :: pending) =>
    some { s with pc := .inCleanup pending, running := s.running ++ [.deleter d],
                  log := s.log ++ [.spawn (.deleter d)] }
  | .inCleanup (_ :: pending) => some { s with pc := .inCleanup pending }
  | .waitDeleters =>
    if s.wg = 0 then some { s with pc := .exited, log := s.log ++ [.waitReturned, .exit] }
    else none
  | .exited => none

/-- One step of the process; `none` when the scheduler asks for what cannot
happen.  Nothing runs once `main` has returned. -/
def step (fl : Flags) (w : World) (s : MainState) : Action → Option MainState
  | .main => mainStep fl w s
  | .finish i =>
    if s.pc = .exited then none
    else
      match s.running[i]? with
      | none => none
      | some t =>
        some { s with wg := s.wg - 1, running := s.running.eraseIdx i,
                      log := s.log ++ [.done t] }

/-- The state a schedule leads to from `s`. -/
def run (fl : Flags) (w : World) : List Action → MainState → Option MainState
  | [], s => some s
  | a :: rest, s =>
    match step fl w s a with
    | none => none
    | some s1 => run fl w rest s1

/-- Flags for one writer and one reader on `base`, with cleanup. -/
def demoFlags : Flags :=
  ⟨1, 1, "base", 100, 1, 1, true, true⟩

/-- A schedule of `demoFlags` in `demoWorld` up to the return of `main`: the
reader finishes before the writer, the deleter of `base/b` before that of
`base/a`. -/
def demoSchedule : List Action :=
  [.main, .main, .main, .main, .finish 1, .finish 0, .main, .main,
    .main, .main, .main, .main, .main, .main, .main, .finish 1, .finish 0, .main]

/-- What is observed of `demoSchedule`. -/
def demoLog : List Obs :=
  [.spawn (.writer 0), .spawn (.reader 0), .done (.reader 0), .done (.writer 0),
    .waitReturned, .cleanupCalled,
    .spawn (.deleter ⟨1, "base/a"⟩), .spawn (.deleter ⟨2, "base/b"⟩),
    .done (.deleter ⟨2, "base/b"⟩), .done (.deleter ⟨1, "base/a"⟩),
    .waitReturned, .exit]

/-! ## What holds of every state of the process -/

/-- Only goroutines of the load phase appear in the observations. -/
def LoadLog (a : List Obs) : Prop :=
  ∀ o ∈ a, ∃ t : Task, t.isLoad = true ∧ (o = .spawn t ∨ o = .done t)

/-- Only deleters appear in the observations. -/
def DelLog (b : List Obs) : Prop :=
  ∀ o ∈ b, ∃ d : Deleter, o = .spawn (.deleter d) ∨ o = .done (.deleter d)

/-- Every writer and every reader the flags ask for was started. -/
def AllStarted (fl : Flags) (a : List Obs) : Prop :=
  (∀ i : Nat, (i : Int) < fl.numWriters → Obs.spawn (.writer i) ∈ a) ∧
  (∀ i : Nat, (i : Int) < fl.numReaders → Obs.spawn (.reader i) ∈ a)

/-- Every goroutine that was started has finished. -/
def AllDone (a : List Obs) : Prop :=
  ∀ t : Task, Obs.spawn t ∈ a → Obs.done t ∈ a

/-- The load phase: the counter of the `WaitGroup` is the number of goroutines
still running, and a goroutine that was started is running or has finished. -/
def LoadInv (s : MainState) : Prop :=
  LoadLog s.log ∧ s.wg = s.running.length ∧ (∀ t ∈ s.running, t.isLoad = true) ∧
    ∀ t : Task, Obs.spawn t ∈ s.log → t ∈ s.running ∨ Obs.done t ∈ s.log

/-- The cleanup phase: it was asked for, the load phase is complete and was
joined before `cleanup` was called, and only deleters came after. -/
def CleanupInv (fl : Flags) (s : MainState) : Prop :=
  fl.deleteFiles = true ∧ (∀ t ∈ s.running, ∃ d, t = Task.deleter d) ∧
    ∃ a b, s.log = a ++ .waitReturned :: .cleanupCalled :: b ∧
      LoadLog a ∧ AllStarted fl a ∧ AllDone a ∧ DelLog b

/-- The invariant of the process, by the place of the main goroutine. -/
def Inv (fl : Flags) (s : MainState) : Prop :=
  match s.pc with
  | .startWriters i => LoadInv s ∧ ∀ j : Nat, j < i → Obs.spawn (.writer j) ∈ s.log
  | .startReaders i =>
    LoadInv s ∧ (∀ j : Nat, (j : Int) < fl.numWriters → Obs.spawn (.writer j) ∈ s.log) ∧
      ∀ j : Nat, j < i → Obs.spawn (.reader j) ∈ s.log
  | .waitLoad => LoadInv s ∧ AllStarted fl s.log
  | .checkDelete =>
    s.running = [] ∧ ∃ a, s.log = a ++ [.waitReturned] ∧
      LoadLog a ∧ AllStarted fl a ∧ AllDone a
  | .inCleanup _ => CleanupInv fl s
  | .waitDeleters => CleanupInv fl s
  | .exited =>
    (fl.deleteFiles = false ∧ ∃ a, s.log = a ++ [.waitReturned, .exit] ∧
      LoadLog a ∧ AllStarted fl a ∧ AllDone a) ∨
    (fl.deleteFiles = true ∧ ∃ a b,
      s.log = a ++ .waitReturned :: .cleanupCalled :: (b ++ [.waitReturned, .exit]) ∧
      LoadLog a ∧ AllStarted fl a ∧ AllDone a ∧ DelLog b)

/-- In the trace every `wg.Add(1)` is followed at once by a `go` statement,
and every `go` statement follows a `wg.Add(1)`. -/
inductive Paired : Trace → Prop where
  | nil : Paired []
  | pair (d : Deleter) {rest : Trace} (h : Paired rest) :
    Paired (.wgAdd :: .goDeleter d :: rest)
  | other {e : Event} {rest : Trace} (h1 : e ≠ .wgAdd) (h2 : ∀ d, e ≠ .goDeleter d)
    (h : Paired rest) : Paired (e :: rest)

/-- A deleter that was started is running or has finished. -/
def DelTracked (s : MainState) : Prop :=
  ∀ d : Deleter, Obs.spawn (.deleter d) ∈ s.log →
    Task.deleter d ∈ s.running ∨ Obs.done (.deleter d) ∈ s.log

/-- Every `go` statement of the call of `cleanup` was run. -/
def AllDeletersStarted (fl : Flags) (w : World) (log : List Obs) : Prop :=
  ∀ d : Deleter, Event.goDeleter d ∈ (cleanup w fl.testPath []).2 →
    Obs.spawn (.deleter d) ∈ log

/-- The invariant of the second join, by the place of the main goroutine: in
the cleanup phase the counter of the `WaitGroup` is the number of deleters
still running, plus one between a `wg.Add(1)` and its `go` statement; a deleter
that was started is running or has finished; and a `go` statement of `cleanup`
is still to come or was run. -/
def JoinInv (fl : Flags) (w : World) (s : MainState) : Prop :=
  match s.pc with
  | .checkDelete =>
    s.wg = 0 ∧ s.running = [] ∧ ∀ d : Deleter, Obs.spawn (.deleter d) ∉ s.log
  | .inCleanup pending =>
    DelTracked s ∧
      ((Paired pending ∧ s.wg = s.running.length) ∨
        ∃ d rest, pending = .goDeleter d :: rest ∧ Paired rest ∧
          s.wg = s.running.length + 1) ∧
      ∀ d : Deleter, Event.goDeleter d ∈ (cleanup w fl.testPath []).2 →
        Event.goDeleter d ∈ pending ∨ Obs.spawn (.deleter d) ∈ s.log
  | .waitDeleters =>
    DelTracked s ∧ s.wg = s.running.length ∧ AllDeletersStarted fl w s.log
  | .exited =>
    fl.deleteFiles = true →
      s.running = [] ∧ s.wg = 0 ∧ AllDeletersStarted fl w s.log ∧
        ∀ d : Deleter, Obs.spawn (.deleter d) ∈ s.log → Obs.done (.deleter d) ∈ s.log
  | _ => True

/-! # Theorems -/

/-! ## Facts about `randomString` -/

theorem charSet_length : charSet.length = 52 := by decide

theorem drawEvents_isRandInt (draws : List Nat) :
    ∀ e ∈ drawEvents draws, e.isRandInt = true := by
  intro e he
  simp only [drawEvents, List.mem_map] at he
  obtain ⟨d, -, rfl⟩ := he
  rfl

/-- Whatever the random source does, `randomStringLoop` only adds draws to the
trace. -/
theorem randomStringLoop_trace (w : World) :
    ∀ (k : Nat) (sb : List Char) (tr : Trace),
      ∃ evs, (randomStringLoop w k sb tr).2 = tr ++ evs ∧ ∀ e ∈ evs, e.isRandInt = true := by
  intro k
  induction k with
  | zero => intro sb tr; exact ⟨[], by simp [randomStringLoop]⟩
  | succ k ih =>
    intro sb tr
    cases hr : w.randInt tr charSet.length with
    | error e =>
      refine ⟨[.randInt charSet.length none], ?_, by simp [Event.isRandInt]⟩
      simp only [randomStringLoop, hr]
    | ok n =>
      cases hc : charSet[n]? with
      | none =>
        refine ⟨[.randInt charSet.length (some n)], ?_, by simp [Event.isRandInt]⟩
        simp only [randomStringLoop, hr, hc]
      | some c =>
        obtain ⟨evs, h1, h2⟩ := ih (sb ++ [c]) (tr ++ [.randInt charSet.length (some n)])
        refine ⟨.randInt charSet.length (some n) :: evs, ?_, ?_⟩
        · simp only [randomStringLoop, hr, hc, h1, List.append_assoc, List.singleton_append]
        · intro e he
          rcases List.mem_cons.mp he with rfl | he
          · rfl
          · exact h2 e he

/-- A successful `randomStringLoop` made `k` draws and appended the character
of each to the builder. -/
theorem randomStringLoop_ok_inv (w : World) :
    ∀ (k : Nat) (sb : List Char) (tr : Trace) (s : String) (tr1 : Trace),
      randomStringLoop w k sb tr = (.ok s, tr1) →
      ∃ (draws : List Nat) (cs : List Char), draws.length = k ∧
        cs.map some = drawnChars draws ∧ s = String.mk (sb ++ cs) ∧
        tr1 = tr ++ drawEvents draws := by
  intro k
  induction k with
  | zero =>
    intro sb tr s tr1 h
    simp only [randomStringLoop, Prod.mk.injEq, Res.ok.injEq] at h
    exact ⟨[], [], rfl, rfl, by simp [h.1], by simp [drawEvents, h.2]⟩
  | succ k ih =>
    intro sb tr s tr1 h
    simp only [randomStringLoop] at h
    cases hr : w.randInt tr charSet.length with
    | error e => simp [hr] at h
    | ok n =>
      cases hc : charSet[n]? with
      | none => simp [hr, hc] at h
      | some c =>
        simp only [hr, hc] at h
        obtain ⟨draws, cs, h1, h2, h3, h4⟩ := ih _ _ _ _ h
        refine ⟨n :: draws, c :: cs, by simp [h1], ?_, ?_, ?_⟩
        · simp only [List.map_cons, drawnChars, hc, List.cons.injEq, true_and]
          exact h2
        · simp [h3]
        · simp [h4, drawEvents]

/-- With a random source that always answers inside the alphabet,
`randomStringLoop` succeeds. -/
theorem randomStringLoop_ok (w : World)
    (hdraw : ∀ h, ∃ d, w.randInt h charSet.length = .ok d ∧ d < charSet.length) :
    ∀ (k : Nat) (sb : List Char) (tr : Trace),
      ∃ s tr1, randomStringLoop w k sb tr = (.ok s, tr1) := by
  intro k
  induction k with
  | zero => intro sb tr; exact ⟨_, _, rfl⟩
  | succ k ih =>
    intro sb tr
    obtain ⟨d, hd, hlt⟩ := hdraw tr
    obtain ⟨c, hc⟩ : ∃ c, charSet[d]? = some c := ⟨charSet[d], List.getElem?_eq_getElem hlt⟩
    simp only [randomStringLoop, hd, hc]
    exact ih _ _

/-- A character the alphabet gave for some draw belongs to the alphabet, and
the draw was below its size. -/
theorem drawnChars_mem (draws : List Nat) (cs : List Char)
    (h : cs.map some = drawnChars draws) :
    (∀ c ∈ cs, c ∈ charSet) ∧ ∀ d ∈ draws, d < charSet.length := by
  induction draws generalizing cs with
  | nil =>
    simp only [drawnChars, List.map_nil, List.map_eq_nil_iff] at h
    subst h
    simp
  | cons d ds ih =>
    cases cs with
    | nil => simp [drawnChars] at h
    | cons c cs =>
      simp only [drawnChars, List.map_cons, List.cons.injEq] at h
      obtain ⟨hc, hrest⟩ := h
      obtain ⟨i1, i2⟩ := ih cs hrest
      have hmem : c ∈ charSet := List.getElem?_mem hc.symm
      have hlt : d < charSet.length := by
        by_contra hge
        rw [List.getElem?_eq_none (Nat.le_of_not_lt hge)] at hc
        cases hc
      constructor
      · intro x hx
        rcases List.mem_cons.mp hx with rfl | hx
        · exact hmem
        · exact i1 x hx
      · intro x hx
        rcases List.mem_cons.mp hx with rfl | hx
        · exact hlt
        · exact i2 x hx

/-- The alphabet is the set of the ASCII letters. -/
theorem mem_charSet_iff (c : Char) : c ∈ charSet ↔ c.isAlpha = true := by
  constructor
  · revert c
    decide
  · intro h
    have h1 : c = Char.ofNat c.toNat := by simp
    have h0 : c.toNat = c.val.toNat := rfl
    simp only [Char.isAlpha, Char.isUpper, Char.isLower, Bool.or_eq_true, Bool.and_eq_true,
      decide_eq_true_eq] at h
    rw [h1]
    rcases h with ⟨h2, h3⟩ | ⟨h2, h3⟩
    · have a1 : 65 ≤ c.toNat := by rw [h0]; exact h2
      have a2 : c.toNat ≤ 90 := by rw [h0]; exact h3
      generalize c.toNat = n at a1 a2
      interval_cases n <;> decide
    · have a1 : 97 ≤ c.toNat := by rw [h0]; exact h2
      have a2 : c.toNat ≤ 122 := by rw [h0]; exact h3
      generalize c.toNat = n at a1 a2
      interval_cases n <;> decide

/-- C2: for every length `L ≥ 0` and every random source whose draws all
succeed with a value below 52, `randomString(L)` returns success with a string
of exactly `L` characters, each an ASCII letter of the alphabet; the alphabet
has exactly 52 pairwise distinct symbols, which are the letters `A-Z`, `a-z`,
and the i-th character of the string is `charSet[d_i]` for the i-th draw
`d_i` recorded in the trace. -/
theorem randomString_length_alphabet (w : World) (L : Int) (tr : Trace) (hL : 0 ≤ L)
    (hdraw : ∀ h, ∃ d, w.randInt h charSet.length = .ok d ∧ d < 52) :
    charSet.length = 52 ∧ charSet.Nodup ∧ (∀ c, c ∈ charSet ↔ c.isAlpha = true) ∧
    ∃ (s : String) (draws : List Nat),
      randomString w L tr = (.ok s, tr ++ drawEvents draws) ∧
      (s.length : Int) = L ∧ (draws.length : Int) = L ∧
      (∀ c ∈ s.toList, c ∈ charSet) ∧ (∀ d ∈ draws, d < 52) ∧
      s.toList.map some = drawnChars draws := by
  refine ⟨by decide, by decide, mem_charSet_iff, ?_⟩
  have hdraw2 : ∀ h, ∃ d, w.randInt h charSet.length = .ok d ∧ d < charSet.length := by
    intro h
    obtain ⟨d, h1, h2⟩ := hdraw h
    exact ⟨d, h1, by rw [charSet_length]; exact h2⟩
  obtain ⟨s, tr1, hrun⟩ := randomStringLoop_ok w hdraw2 L.toNat [] tr
  obtain ⟨draws, cs, h1, h2, h3, h4⟩ := randomStringLoop_ok_inv w _ _ _ _ _ hrun
  obtain ⟨m1, m2⟩ := drawnChars_mem draws cs h2
  have hlen : cs.length = L.toNat := by
    have := congrArg List.length h2
    simp only [List.length_map, drawnChars] at this
    omega
  refine ⟨s, draws, ?_, ?_, ?_, ?_, ?_, ?_⟩
  · rw [randomString, hrun, h4]
  · subst h3
    simp only [List.nil_append, String.length]
    omega
  · omega
  · subst h3
    simpa using m1
  · intro d hd
    have := m2 d hd
    rwa [charSet_length] at this
  · subst h3
    simpa using h2

/-- C2 at the world whose draws cycle through the alphabet: three characters. -/
theorem randomString_length_alphabet_witness :
    charSet.length = 52 ∧ charSet.Nodup ∧ (∀ c, c ∈ charSet ↔ c.isAlpha = true) ∧
    ∃ (s : String) (draws : List Nat),
      randomString demoWorld 3 [] = (.ok s, [] ++ drawEvents draws) ∧
      (s.length : Int) = 3 ∧ (draws.length : Int) = 3 ∧
      (∀ c ∈ s.toList, c ∈ charSet) ∧ (∀ d ∈ draws, d < 52) ∧
      s.toList.map some = drawnChars draws :=
  randomString_length_alphabet demoWorld 3 [] (by decide)
    (fun h => ⟨h.length % 52, rfl, Nat.mod_lt _ (by decide)⟩)

/-- A successful `randomString(L)` made `L` draws, all inside the alphabet,
and returns the `L` letters they select. -/
theorem randomString_ok_inv (w : World) (L : Int) (tr : Trace) (s : String) (tr1 : Trace)
    (h : randomString w L tr = (.ok s, tr1)) :
    ∃ draws : List Nat, tr1 = tr ++ drawEvents draws ∧ draws.length = L.toNat ∧
      s.length = L.toNat ∧ (∀ c ∈ s.toList, c ∈ charSet) ∧
      s.toList.map some = drawnChars draws := by
  obtain ⟨draws, cs, h1, h2, h3, h4⟩ := randomStringLoop_ok_inv w _ _ _ _ _ h
  obtain ⟨m1, -⟩ := drawnChars_mem draws cs h2
  have hlen : cs.length = L.toNat := by
    have := congrArg List.length h2
    simp only [List.length_map, drawnChars] at this
    omega
  subst h3
  exact ⟨draws, h4, h1, by simpa [String.length] using hlen, by simpa using m1,
    by simpa using h2⟩

/-- Whatever the random source does, `randomString` only adds draws to the
trace. -/
theorem randomString_trace (w : World) (L : Int) (tr : Trace) :
    ∃ evs, (randomString w L tr).2 = tr ++ evs ∧ ∀ e ∈ evs, e.isRandInt = true :=
  randomStringLoop_trace w _ _ _

/-- The loop of `randomString` always returns. -/
theorem randomStringLoop_returns (w : World) :
    ∀ (k : Nat) (sb : List Char) (tr : Trace),
      (randomStringLoop w k sb tr).1 ≠ .outOfFuel := by
  intro k
  induction k with
  | zero => intro sb tr; simp [randomStringLoop]
  | succ k ih =>
    intro sb tr
    cases hr : w.randInt tr charSet.length with
    | error e => simp [randomStringLoop, hr]
    | ok n =>
      cases hc : charSet[n]? with
      | none => simp [randomStringLoop, hr, hc]
      | some c =>
        simp only [randomStringLoop, hr, hc]
        exact ih _ _

/-! ## Facts about `writeRandomFile` -/

/-- Every run of `writeLoop` is a `LoopRun`. -/
theorem writeLoop_run (w : World) (fileName path : String) :
    ∀ (fuel : Nat) (bytesRemaining : Int) (tr : Trace),
      ∃ evs, (writeLoop w fileName path fuel bytesRemaining tr).2 = tr ++ evs ∧
        LoopRun w fileName path bytesRemaining evs
          (writeLoop w fileName path fuel bytesRemaining tr).1 := by
  intro fuel
  induction fuel with
  | zero =>
    intro rem tr
    by_cases h : rem > 0
    · exact ⟨[], by simp [writeLoop, h], by simpa [writeLoop, h] using LoopRun.fuelOut h⟩
    · exact ⟨[], by simp [writeLoop, h], by simpa [writeLoop, h] using LoopRun.done h⟩
  | succ fuel ih =>
    intro rem tr
    by_cases h : rem > 0
    · cases hr : w.randRead tr (min bufferSize rem).toNat with
      | some e =>
        refine ⟨[.randRead (min bufferSize rem).toNat (some e)], ?_, ?_⟩
        · simp only [writeLoop, h, if_true, hr]
        · simp only [writeLoop, h, if_true, hr]
          exact LoopRun.randFail h
      | none =>
        rcases hw : w.write (tr ++ [.randRead (min bufferSize rem).toNat none]) path
          (min bufferSize rem).toNat with ⟨n, _ | e⟩
        · obtain ⟨evs, h1, h2⟩ := ih (rem - n)
            (tr ++ [.randRead (min bufferSize rem).toNat none,
              .write path (min bufferSize rem).toNat n none])
          refine ⟨.randRead (min bufferSize rem).toNat none ::
            .write path (min bufferSize rem).toNat n none :: evs, ?_, ?_⟩
          · simp only [writeLoop, h, if_true, hr, hw, h1, List.append_assoc, List.cons_append,
              List.nil_append]
          · simp only [writeLoop, h, if_true, hr, hw]
            exact LoopRun.step h ⟨_, hw⟩ h2
        · refine ⟨[.randRead (min bufferSize rem).toNat none,
            .write path (min bufferSize rem).toNat n (some e)], ?_, ?_⟩
          · simp only [writeLoop, h, if_true, hr, hw]
          · simp only [writeLoop, h, if_true, hr, hw]
            exact LoopRun.writeFail h
    · exact ⟨[], by simp [writeLoop, h], by simpa [writeLoop, h] using LoopRun.done h⟩

/-- The write loop only draws random bytes and writes to its file. -/
theorem LoopRun.events {w : World} {fileName path : String} {rem : Int} {evs : Trace}
    {r : Res Unit} (h : LoopRun w fileName path rem evs r) :
    ∀ e ∈ evs, (∃ l x, e = .randRead l x) ∨ (∃ l n x, e = .write path l n x) := by
  induction h with
  | done _ => simp
  | fuelOut _ => simp
  | randFail _ =>
    intro e he
    simp only [List.mem_singleton] at he
    exact Or.inl ⟨_, _, he⟩
  | writeFail _ =>
    intro e he
    simp only [List.mem_cons, List.mem_singleton, List.not_mem_nil, or_false] at he
    rcases he with he | he
    · exact Or.inl ⟨_, _, he⟩
    · exact Or.inr ⟨_, _, _, he⟩
  | step _ _ _ ih =>
    intro e he
    simp only [List.mem_cons] at he
    rcases he with he | he | he
    · exact Or.inl ⟨_, _, he⟩
    · exact Or.inr ⟨_, _, _, he⟩
    · exact ih e he

/-- The write loop never panics. -/
theorem LoopRun.ne_panic {w : World} {fileName path : String} {rem : Int} {evs : Trace}
    {r : Res Unit} (h : LoopRun w fileName path rem evs r) : r ≠ .panic := by
  induction h with
  | done _ => simp
  | fuelOut _ => simp
  | randFail _ => simp
  | writeFail _ => simp
  | step _ _ _ ih => exact ih

/-- Every buffer of the write loop passes the check of `buffersOk`. -/
theorem LoopRun.buffers_checked {w : World} {fileName path : String} {rem : Int} {evs : Trace}
    {r : Res Unit} (h : LoopRun w fileName path rem evs r) :
    Loadtest.buffersOk rem evs = true := by
  induction h with
  | done _ => rfl
  | fuelOut _ => rfl
  | randFail _ => rfl
  | @writeFail rem n e h =>
    have h1 : (0 : Int) ≤ min bufferSize rem := by
      unfold min bufferSize; split <;> omega
    simp [Loadtest.buffersOk, Int.toNat_of_nonneg h1]
    omega
  | @step rem n evs r h _ _ ih =>
    have h1 : (0 : Int) ≤ min bufferSize rem := by
      unfold min bufferSize; split <;> omega
    simp [Loadtest.buffersOk, Int.toNat_of_nonneg h1, ih]
    omega

/-- A write loop that fails on a write stops there, with the error of that
write; otherwise no write of it failed. -/
theorem LoopRun.failure {w : World} {fileName path : String} {rem : Int} {evs : Trace}
    {r : Res Unit} (h : LoopRun w fileName path rem evs r) :
    (∀ e ∈ evs, e.fileFailure = none) ∨
    ∃ pre l n err, evs = pre ++ [.write path l n (some err)] ∧
      (∀ e ∈ pre, e.fileFailure = none) ∧
      r = .err (.errorfWrap "failed to write bytes to file %q: %v" [fileName] err) := by
  induction h with
  | done _ => left; simp
  | fuelOut _ => left; simp
  | randFail _ => left; simp [Event.fileFailure]
  | @writeFail rem n e h =>
    right
    exact ⟨[.randRead _ none], _, n, e, rfl, by simp [Event.fileFailure], rfl⟩
  | @step rem n evs r h _ _ ih =>
    rcases ih with ih | ⟨pre, l, m, err, h1, h2, h3⟩
    · left
      intro e he
      simp only [List.mem_cons] at he
      rcases he with rfl | rfl | he
      · rfl
      · rfl
      · exact ih e he
    · right
      refine ⟨.randRead (min bufferSize rem).toNat none ::
        .write path (min bufferSize rem).toNat n none :: pre, l, m, err, ?_, ?_, h3⟩
      · simp [h1]
      · intro e he
        simp only [List.mem_cons] at he
        rcases he with rfl | rfl | he
        · rfl
        · rfl
        · exact h2 e he

theorem bytesWritten_append (a b : Trace) :
    bytesWritten (a ++ b) = bytesWritten a + bytesWritten b := by
  simp [bytesWritten]

theorem bytesWritten_eq_zero (evs : Trace) (h : ∀ e ∈ evs, e.isWrite = false) :
    bytesWritten evs = 0 := by
  induction evs with
  | nil => rfl
  | cons e es ih =>
    have h1 : e.written = 0 := by
      have := h e (List.mem_cons_self _ _)
      cases e <;> simp_all [Event.isWrite, Event.written]
    have h2 := ih (fun x hx => h x (List.mem_cons_of_mem _ hx))
    simp only [bytesWritten, List.map_cons, List.sum_cons] at h2 ⊢
    omega

/-- When a successful write reports between 1 byte and the whole buffer, a
write loop that ends in success reported exactly the bytes it had to go. -/
theorem LoopRun.ok_sum {w : World} {fileName path : String} {rem : Int} {evs : Trace}
    {r : Res Unit} (h : LoopRun w fileName path rem evs r)
    (hw : ∀ tr p len, 0 < len → (w.write tr p len).2 = none →
      1 ≤ (w.write tr p len).1 ∧ (w.write tr p len).1 ≤ len)
    (hr : r = .ok ()) : bytesWritten evs = rem.toNat := by
  induction h with
  | @done rem h => simp only [bytesWritten, List.map_nil, List.sum_nil]; omega
  | fuelOut _ => cases hr
  | randFail _ => cases hr
  | writeFail _ => cases hr
  | @step rem n evs r h hn _ ih =>
    obtain ⟨tr, hn⟩ := hn
    have h3 : (min bufferSize rem).toNat ≤ rem.toNat ∧ 0 < (min bufferSize rem).toNat := by
      unfold min bufferSize; split <;> omega
    have h2 := hw tr path (min bufferSize rem).toNat h3.2 (by rw [hn])
    rw [hn] at h2
    have := ih hr
    simp only [bytesWritten, List.map_cons, List.sum_cons, Event.written] at this ⊢
    omega

/-- When a successful write reports at least 1 byte, `writeLoop` returns
within as many iterations as there are bytes to go. -/
theorem writeLoop_returns (w : World) (fileName path : String)
    (hw : ∀ tr p len, 0 < len → (w.write tr p len).2 = none →
      1 ≤ (w.write tr p len).1 ∧ (w.write tr p len).1 ≤ len) :
    ∀ (fuel : Nat) (rem : Int) (tr : Trace), rem.toNat ≤ fuel →
      (writeLoop w fileName path fuel rem tr).1 ≠ .outOfFuel := by
  intro fuel
  induction fuel with
  | zero =>
    intro rem tr hf
    have : ¬ rem > 0 := by omega
    simp [writeLoop, this]
  | succ fuel ih =>
    intro rem tr hf
    by_cases h : rem > 0
    · cases hr : w.randRead tr (min bufferSize rem).toNat with
      | some e => simp [writeLoop, h, hr]
      | none =>
        rcases hx : w.write (tr ++ [.randRead (min bufferSize rem).toNat none]) path
          (min bufferSize rem).toNat with ⟨n, _ | e⟩
        · have h3 : 0 < (min bufferSize rem).toNat := by
            unfold min bufferSize; split <;> omega
          have h2 := hw _ path (min bufferSize rem).toNat h3 (by rw [hx])
          rw [hx] at h2
          simp only [writeLoop, h, if_true, hr, hx]
          exact ih _ _ (by omega)
        · simp [writeLoop, h, hr, hx]
    · simp [writeLoop, h]

/-- The three ways a call of `writeRandomFile` goes: the name is not generated;
the creation fails; the file is created and the write loop runs. -/
theorem writeRandomFile_cases (w : World) (fuel : Nat) (dir : String) (S : Int) (tr : Trace) :
    (∃ evs, (∀ e ∈ evs, e.isRandInt = true) ∧
      (∀ name, (randomString w fileNameLen tr).1 ≠ .ok name) ∧
      (writeRandomFile w fuel dir S tr).2 = tr ++ evs ∧
      (writeRandomFile w fuel dir S tr).1 ≠ .ok () ∧
      (writeRandomFile w fuel dir S tr).1 ≠ .outOfFuel) ∨
    (∃ name draws, randomString w fileNameLen tr = (.ok name, tr ++ drawEvents draws) ∧
      name.length = 10 ∧ (∀ c ∈ name.toList, c ∈ charSet) ∧
      ((∃ err, w.create (tr ++ drawEvents draws) (w.join dir name) = some err ∧
          writeRandomFile w fuel dir S tr =
            (.err (.errorfWrap "failed to create file %q: %v" [name] err),
              tr ++ (drawEvents draws ++
                [.create (w.join dir name) (some err), .close none]))) ∨
        (w.create (tr ++ drawEvents draws) (w.join dir name) = none ∧
          ∃ evs r, LoopRun w name (w.join dir name) S evs r ∧
            r = (writeLoop w name (w.join dir name) fuel S
              (tr ++ drawEvents draws ++ [.create (w.join dir name) none])).1 ∧
            writeRandomFile w fuel dir S tr =
              (r, tr ++ (drawEvents draws ++ .create (w.join dir name) none ::
                (evs ++ if r = .outOfFuel then [] else
                  [.close (some (w.join dir name))])))))) := by
  rcases hrs : randomString w fileNameLen tr with ⟨rs, tr1⟩
  cases rs with
  | err e =>
    left
    obtain ⟨evs, h1, h2⟩ := randomString_trace w fileNameLen tr
    rw [hrs] at h1
    exact ⟨evs, h2, by simp, by simp [writeRandomFile, hrs, h1], by simp [writeRandomFile, hrs],
      by simp [writeRandomFile, hrs]⟩
  | panic =>
    left
    obtain ⟨evs, h1, h2⟩ := randomString_trace w fileNameLen tr
    rw [hrs] at h1
    exact ⟨evs, h2, by simp, by simp [writeRandomFile, hrs, h1], by simp [writeRandomFile, hrs],
      by simp [writeRandomFile, hrs]⟩
  | outOfFuel =>
    exact absurd (congrArg Prod.fst hrs) (randomStringLoop_returns w _ _ _)
  | ok name =>
    right
    obtain ⟨draws, h1, -, h3, h4, -⟩ := randomString_ok_inv w _ _ _ _ hrs
    subst h1
    refine ⟨name, draws, rfl, by simpa [fileNameLen] using h3, h4, ?_⟩
    cases hc : w.create (tr ++ drawEvents draws) (w.join dir name) with
    | some err =>
      left
      refine ⟨err, rfl, ?_⟩
      simp [writeRandomFile, hrs, hc, writeRandomFileBody]
    | none =>
      right
      refine ⟨rfl, ?_⟩
      obtain ⟨evs, e1, e2⟩ := writeLoop_run w name (w.join dir name) fuel S
        (tr ++ drawEvents draws ++ [.create (w.join dir name) none])
      refine ⟨evs, _, e2, rfl, ?_⟩
      rcases hl : writeLoop w name (w.join dir name) fuel S
        (tr ++ drawEvents draws ++ [.create (w.join dir name) none]) with ⟨r, tr2⟩
      rw [hl] at e1
      simp only at e1
      subst e1
      have hl2 := hl
      simp only [List.append_assoc] at hl2
      cases r <;> simp [writeRandomFile, hrs, hc, writeRandomFileBody, hl2]

theorem buffersOk_skip (rem : Int) (a b : Trace) (h : ∀ e ∈ a, e.isWrite = false) :
    buffersOk rem (a ++ b) = buffersOk rem b := by
  induction a with
  | nil => rfl
  | cons e es ih =>
    have h1 := h e (List.mem_cons_self _ _)
    have h2 := ih (fun x hx => h x (List.mem_cons_of_mem _ hx))
    cases e <;> simp_all [buffersOk, Event.isWrite]

theorem buffersOk_append (rem : Int) (a b : Trace) (ha : buffersOk rem a = true)
    (h : ∀ e ∈ b, e.isWrite = false) : buffersOk rem (a ++ b) = true := by
  induction a generalizing rem with
  | nil =>
    have := buffersOk_skip rem b [] h
    simpa [buffersOk] using this
  | cons e es ih =>
    cases e <;> simp_all [buffersOk]

/-- What `buffersOk` says about the write call found at any place of a trace. -/
theorem buffersOk_split (rem : Int) (evs a b : Trace) (p : String) (len n : Nat)
    (x : Option Err) (h : buffersOk rem evs = true) (hs : evs = a ++ .write p len n x :: b) :
    0 < rem - bytesWritten a ∧ (len : Int) = min bufferSize (rem - bytesWritten a) := by
  induction a generalizing rem evs with
  | nil =>
    subst hs
    simp only [List.nil_append, buffersOk, Bool.and_eq_true, decide_eq_true_eq] at h
    simpa [bytesWritten] using h.1
  | cons e es ih =>
    subst hs
    have key : ∀ m : Nat, e.written = m →
        buffersOk (rem - m) (es ++ .write p len n x :: b) = true →
        0 < rem - bytesWritten (e :: es) ∧
          (len : Int) = min bufferSize (rem - bytesWritten (e :: es)) := by
      intro m hm hb
      have := ih (rem - m) _ hb rfl
      have e1 : (bytesWritten (e :: es) : Int) = m + bytesWritten es := by
        simp [bytesWritten, hm]
      rw [e1]
      have e2 : rem - (↑m + ↑(bytesWritten es)) = rem - ↑m - ↑(bytesWritten es) := by omega
      rw [e2]
      exact this
    cases e with
    | write q l m y =>
      simp only [List.cons_append, buffersOk, Bool.and_eq_true, decide_eq_true_eq] at h
      exact key m rfl h.2
    | _ =>
      simp only [List.cons_append, buffersOk] at h
      exact key 0 rfl (by simpa using h)

theorem drawEvents_not_write (draws : List Nat) : ∀ e ∈ drawEvents draws, e.isWrite = false := by
  intro e he
  have := drawEvents_isRandInt draws e he
  cases e <;> simp_all [Event.isRandInt, Event.isWrite]

theorem isRandInt_not_write (evs : Trace) (h : ∀ e ∈ evs, e.isRandInt = true) :
    ∀ e ∈ evs, e.isWrite = false := by
  intro e he
  have := h e he
  cases e <;> simp_all [Event.isRandInt, Event.isWrite]

/-- C1: for every file size `S ≥ 0` and every world in which a successful
write of a buffer reports a count between 1 and the length of the buffer,
`writeRandomFile(dir, S)` returns (within `S` iterations of its loop), and if
it returns success then the byte counts reported by its write calls, all on
the one file it created, sum to exactly `S`; for `S = 0` it makes no write
call at all, and whenever the name generation and the file creation succeed it
returns success after the creation and the deferred close alone. -/
theorem writeRandomFile_writes_fileSize (w : World) (fuel : Nat) (dir : String) (S : Int)
    (tr : Trace) (hS : 0 ≤ S)
    (hw : ∀ h p len, 0 < len → (w.write h p len).2 = none →
      1 ≤ (w.write h p len).1 ∧ (w.write h p len).1 ≤ len)
    (hfuel : S.toNat ≤ fuel) :
    ∃ r evs, writeRandomFile w fuel dir S tr = (r, tr ++ evs) ∧ r ≠ .outOfFuel ∧
      (r = .ok () → (bytesWritten evs : Int) = S ∧
        ∃ name, evs.filter Event.isCreate = [.create (w.join dir name) none] ∧
          ∀ e ∈ evs, e.isWrite = true → ∃ l n x, e = .write (w.join dir name) l n x) ∧
      (S = 0 → (∀ e ∈ evs, e.isWrite = false) ∧
        ∀ name tr1, randomString w fileNameLen tr = (.ok name, tr1) →
          w.create tr1 (w.join dir name) = none →
          r = .ok () ∧ tr ++ evs =
            tr1 ++ [.create (w.join dir name) none, .close (some (w.join dir name))]) := by
  rcases writeRandomFile_cases w fuel dir S tr with
    ⟨evs, h1, h2, h3, h4, h5⟩ | ⟨name, draws, hrs, -, -, hcase⟩
  · refine ⟨(writeRandomFile w fuel dir S tr).1, evs, ?_, h5, ?_, ?_⟩
    · rw [← h3]
    · intro hr
      exact absurd hr h4
    · intro _
      refine ⟨isRandInt_not_write evs h1, ?_⟩
      intro name tr1 hn _
      exact absurd (congrArg Prod.fst hn) (h2 name)
  · rcases hcase with ⟨err, hc, hres⟩ | ⟨hc, evs, r, hrun, hr, hres⟩
    · refine ⟨_, _, hres, by simp, by simp, ?_⟩
      intro _
      constructor
      · intro e he
        simp only [List.mem_append, List.mem_cons, List.mem_singleton, List.not_mem_nil,
          or_false] at he
        rcases he with he | rfl | rfl
        · exact drawEvents_not_write draws e he
        · rfl
        · rfl
      · intro name2 tr1 hn hc2
        rw [hrs] at hn
        simp only [Prod.mk.injEq, Res.ok.injEq] at hn
        obtain ⟨rfl, rfl⟩ := hn
        rw [hc] at hc2
        cases hc2
    · have hret : r ≠ .outOfFuel := by
        rw [hr]
        exact writeLoop_returns w _ _ hw fuel S _ hfuel
      simp only [hret, if_false] at hres
      refine ⟨_, _, hres, hret, ?_, ?_⟩
      · intro hok
        have hsum := hrun.ok_sum hw hok
        have hev := hrun.events
        refine ⟨?_, name, ?_, ?_⟩
        · simp only [bytesWritten_append, bytesWritten_eq_zero _ (drawEvents_not_write draws),
            zero_add]
          have e1 : bytesWritten (Event.create (w.join dir name) none ::
              (evs ++ [Event.close (some (w.join dir name))])) = bytesWritten evs := by
            simp [bytesWritten, Event.written]
          rw [e1, hsum]
          omega
        · have d1 : (drawEvents draws).filter Event.isCreate = [] := by
            rw [List.filter_eq_nil_iff]
            intro e he
            have := drawEvents_isRandInt draws e he
            cases e <;> simp_all [Event.isRandInt, Event.isCreate]
          have d2 : evs.filter Event.isCreate = [] := by
            rw [List.filter_eq_nil_iff]
            intro e he
            rcases hev e he with ⟨l, x, rfl⟩ | ⟨l, n, x, rfl⟩ <;> simp [Event.isCreate]
          simp [List.filter_append, List.filter_cons, d1, d2, Event.isCreate]
        · intro e he hwr
          simp only [List.mem_append, List.mem_cons, List.mem_singleton, List.not_mem_nil,
            or_false] at he
          rcases he with he | rfl | he | rfl
          · have := drawEvents_not_write draws e he
            rw [this] at hwr
            cases hwr
          · cases hwr
          · rcases hev e he with ⟨l, x, rfl⟩ | ⟨l, n, x, rfl⟩
            · cases hwr
            · exact ⟨l, n, x, rfl⟩
          · cases hwr
      · intro hS0
        subst hS0
        cases hrun with
        | done _ =>
          constructor
          · intro e he
            simp only [List.nil_append, List.mem_append, List.mem_cons, List.mem_singleton,
              List.not_mem_nil, or_false] at he
            rcases he with he | rfl | rfl
            · exact drawEvents_not_write draws e he
            · rfl
            · rfl
          · intro name2 tr1 hn _
            rw [hrs] at hn
            simp only [Prod.mk.injEq, Res.ok.injEq] at hn
            obtain ⟨rfl, rfl⟩ := hn
            exact ⟨rfl, by simp⟩
        | fuelOut h => omega
        | randFail h => omega
        | writeFail h => omega
        | step h _ _ => omega

/-- C1 at a world where every write takes the whole buffer: 5000 bytes. -/
theorem writeRandomFile_writes_fileSize_witness :
    ∃ r evs, writeRandomFile demoWorld 5000 "d" 5000 [] = (r, [] ++ evs) ∧ r ≠ .outOfFuel ∧
      (r = .ok () → (bytesWritten evs : Int) = 5000 ∧
        ∃ name, evs.filter Event.isCreate = [.create (demoWorld.join "d" name) none] ∧
          ∀ e ∈ evs, e.isWrite = true → ∃ l n x, e = .write (demoWorld.join "d" name) l n x) ∧
      ((5000 : Int) = 0 → (∀ e ∈ evs, e.isWrite = false) ∧
        ∀ name tr1, randomString demoWorld fileNameLen [] = (.ok name, tr1) →
          demoWorld.create tr1 (demoWorld.join "d" name) = none →
          r = .ok () ∧ [] ++ evs =
            tr1 ++ [.create (demoWorld.join "d" name) none,
              .close (some (demoWorld.join "d" name))]) :=
  writeRandomFile_writes_fileSize demoWorld 5000 "d" 5000 [] (by decide)
    (fun _ _ len hlen _ => ⟨hlen, le_refl len⟩) (by decide)

/-- C7: for every file size `S` and every world, whether or not the call has
returned yet, every buffer that `writeRandomFile` passes to a write call has
a length between 1 and 4096 that does not exceed the bytes still remaining
(`S` less the counts reported by the earlier writes): the length is
`min(4096, bytesRemaining)` with `bytesRemaining > 0`. -/
theorem writeRandomFile_buffer_length (w : World) (fuel : Nat) (dir : String) (S : Int)
    (tr : Trace) :
    ∃ evs, (writeRandomFile w fuel dir S tr).2 = tr ++ evs ∧
      ∀ (a b : Trace) (p : String) (len n : Nat) (x : Option Err),
        evs = a ++ .write p len n x :: b →
        0 < S - bytesWritten a ∧ (len : Int) = min 4096 (S - bytesWritten a) ∧
          1 ≤ len ∧ len ≤ 4096 ∧ (len : Int) ≤ S - bytesWritten a := by
  have fin : ∀ evs : Trace, buffersOk S evs = true →
      ∀ (a b : Trace) (p : String) (len n : Nat) (x : Option Err),
        evs = a ++ .write p len n x :: b →
        0 < S - bytesWritten a ∧ (len : Int) = min 4096 (S - bytesWritten a) ∧
          1 ≤ len ∧ len ≤ 4096 ∧ (len : Int) ≤ S - bytesWritten a := by
    intro evs hb a b p len n x hs
    obtain ⟨h1, h2⟩ := buffersOk_split S evs a b p len n x hb hs
    refine ⟨h1, h2, ?_⟩
    revert h2
    unfold min bufferSize
    split <;> intro h2 <;> omega
  rcases writeRandomFile_cases w fuel dir S tr with
    ⟨evs, h1, -, h3, -, -⟩ | ⟨name, draws, -, -, -, hcase⟩
  · refine ⟨evs, h3, fin evs ?_⟩
    have := buffersOk_skip S evs [] (isRandInt_not_write evs h1)
    simpa [buffersOk] using this
  · rcases hcase with ⟨err, -, hres⟩ | ⟨-, evs, r, hrun, -, hres⟩
    · refine ⟨_, by rw [hres], fin _ ?_⟩
      rw [buffersOk_skip S _ _ (drawEvents_not_write draws)]
      rfl
    · refine ⟨_, by rw [hres], fin _ ?_⟩
      rw [buffersOk_skip S _ _ (drawEvents_not_write draws)]
      simp only [buffersOk]
      apply buffersOk_append _ _ _ hrun.buffers_checked
      intro e he
      split at he
      · cases he
      · simp only [List.mem_singleton] at he
        subst he
        rfl

/-- C7 at the second write of a file of 5000 bytes: 904 bytes remain after the
first buffer of 4096. -/
theorem writeRandomFile_buffer_length_witness :
    (0 : Int) < 5000 - bytesWritten ((writeRandomFile demoWorld 5 "d" 5000 []).2.take 14) ∧
      ((904 : Nat) : Int) =
        min 4096 (5000 - bytesWritten ((writeRandomFile demoWorld 5 "d" 5000 []).2.take 14)) := by
  obtain ⟨evs, h1, h2⟩ := writeRandomFile_buffer_length demoWorld 5 "d" 5000 []
  have he : evs = (writeRandomFile demoWorld 5 "d" 5000 []).2 := by simpa using h1.symm
  have hs : evs = (writeRandomFile demoWorld 5 "d" 5000 []).2.take 14 ++
      .write "d/ABCDEFGHIJ" 904 904 none :: [.close (some "d/ABCDEFGHIJ")] := by
    rw [he]
    decide
  obtain ⟨g1, g2, -⟩ := h2 _ _ _ _ _ _ hs
  exact ⟨g1, g2⟩

/-- C8: in `writeRandomFile`, once the file has been opened successfully, on
every path on which the call returns (success, failure of the random source,
failure of a write) the trace of the call ends with the one close of that
file handle: exactly one close, after every write call. -/
theorem writeRandomFile_closes_once (w : World) (fuel : Nat) (dir : String) (S : Int)
    (tr : Trace) (hret : (writeRandomFile w fuel dir S tr).1 ≠ .outOfFuel) :
    ∃ evs, (writeRandomFile w fuel dir S tr).2 = tr ++ evs ∧
      ∀ p, .create p none ∈ evs →
        ∃ pre, evs = pre ++ [.close (some p)] ∧ ∀ e ∈ pre, e.isClose = false := by
  rcases writeRandomFile_cases w fuel dir S tr with
    ⟨evs, h1, -, h3, -, -⟩ | ⟨name, draws, -, -, -, hcase⟩
  · refine ⟨evs, h3, ?_⟩
    intro p hp
    have := h1 _ hp
    cases this
  · rcases hcase with ⟨err, -, hres⟩ | ⟨-, evs, r, hrun, -, hres⟩
    · refine ⟨_, by rw [hres], ?_⟩
      intro p hp
      simp only [List.mem_append, List.mem_cons, List.mem_singleton, List.not_mem_nil,
        or_false] at hp
      rcases hp with hp | hp | hp
      · have := drawEvents_isRandInt draws _ hp
        cases this
      · cases hp
      · cases hp
    · rw [hres] at hret
      simp only [ne_eq] at hret
      simp only [hret, if_false] at hres
      refine ⟨_, by rw [hres], ?_⟩
      have hev := hrun.events
      have hclean : ∀ e ∈ drawEvents draws ++ Event.create (w.join dir name) none :: evs,
          e.isClose = false ∧ ∀ p, p ≠ w.join dir name → e ≠ .create p none := by
        intro e he
        simp only [List.mem_append, List.mem_cons] at he
        rcases he with he | rfl | he
        · have := drawEvents_isRandInt draws e he
          cases e <;> simp_all [Event.isRandInt, Event.isClose]
        · exact ⟨rfl, by intro p hp h; cases h; exact hp rfl⟩
        · rcases hev e he with ⟨l, x, rfl⟩ | ⟨l, n, x, rfl⟩ <;> simp [Event.isClose]
      intro p hp
      have hp2 : p = w.join dir name := by
        by_contra hne
        simp only [List.mem_append, List.mem_cons, List.mem_singleton, List.not_mem_nil,
          or_false] at hp
        rcases hp with hp | hp | hp | hp
        · exact (hclean _ (by simp [hp])).2 p hne rfl
        · exact (hclean _ (by simp)).2 p hne hp.symm
        · exact (hclean _ (by simp [hp])).2 p hne rfl
        · cases hp
      subst hp2
      refine ⟨drawEvents draws ++ Event.create (w.join dir name) none :: evs, by simp, ?_⟩
      intro e he
      exact (hclean e he).1

/-- C8 at a run that writes 5000 bytes in two buffers and returns success. -/
theorem writeRandomFile_closes_once_witness :
    ∃ evs, (writeRandomFile demoWorld 5 "d" 5000 []).2 = [] ++ evs ∧
      ∀ p, .create p none ∈ evs →
        ∃ pre, evs = pre ++ [.close (some p)] ∧ ∀ e ∈ pre, e.isClose = false :=
  writeRandomFile_closes_once demoWorld 5 "d" 5000 [] (by decide)

/-- C10 fails: in a world whose filesystem refuses the creation, the call for
a file of 100 bytes records the failed creation and attempts no write. -/
theorem writeRandomFile_create_failure_counterexample :
    ¬ ((∃ p err, Event.create p (some err) ∈ (writeRandomFile noCreateWorld 5 "d" 100 []).2) →
      ∃ e ∈ (writeRandomFile noCreateWorld 5 "d" 100 []).2, e.isWrite = true) := by
  intro h
  have h2 := h ⟨"d/ABCDEFGHIJ", .os "permission denied", by decide⟩
  revert h2
  decide

/-- C10 as amended: in `writeRandomFile`, when the creation of the file fails,
the function returns the creation error without entering the write loop: no
write is attempted, and the only call after the failed creation is the
deferred close, on the nil handle. -/
theorem writeRandomFile_create_failure (w : World) (fuel : Nat) (dir : String) (S : Int)
    (tr tr1 : Trace) (name : String) (err : Err)
    (hname : randomString w fileNameLen tr = (.ok name, tr1))
    (hcreate : w.create tr1 (w.join dir name) = some err) :
    writeRandomFile w fuel dir S tr =
      (.err (.errorfWrap "failed to create file %q: %v" [name] err),
        tr1 ++ [.create (w.join dir name) (some err), .close none]) := by
  simp [writeRandomFile, hname, hcreate, writeRandomFileBody]

/-- C10 as amended, at a filesystem that refuses the creation. -/
theorem writeRandomFile_create_failure_witness :
    writeRandomFile noCreateWorld 5 "d" 100 [] =
      (.err (.errorfWrap "failed to create file %q: %v" ["ABCDEFGHIJ"]
        (.os "permission denied")),
        drawEvents [0, 1, 2, 3, 4, 5, 6, 7, 8, 9] ++
          [.create (noCreateWorld.join "d" "ABCDEFGHIJ") (some (.os "permission denied")),
            .close none]) :=
  writeRandomFile_create_failure noCreateWorld 5 "d" 100 [] _ "ABCDEFGHIJ"
    (.os "permission denied") (by decide) (by decide)

/-! ## Facts about `writer` -/

theorem isRandInt_clean (evs : Trace) (h : ∀ e ∈ evs, e.isRandInt = true) :
    (∀ e ∈ evs, e.fileFailure = none) ∧ evs.filter Event.isCreate = [] ∧
      evs.filter Event.isMkdirAll = [] := by
  refine ⟨?_, ?_, ?_⟩
  · intro e he
    have := h e he
    cases e <;> simp_all [Event.isRandInt, Event.fileFailure]
  · rw [List.filter_eq_nil_iff]
    intro e he
    have := h e he
    cases e <;> simp_all [Event.isRandInt, Event.isCreate]
  · rw [List.filter_eq_nil_iff]
    intro e he
    have := h e he
    cases e <;> simp_all [Event.isRandInt, Event.isMkdirAll]

theorem loopEvents_clean {path : String} (evs : Trace)
    (h : ∀ e ∈ evs, (∃ l x, e = .randRead l x) ∨ (∃ l n x, e = .write path l n x)) :
    evs.filter Event.isCreate = [] ∧ evs.filter Event.isMkdirAll = [] := by
  constructor
  · rw [List.filter_eq_nil_iff]
    intro e he
    rcases h e he with ⟨l, x, rfl⟩ | ⟨l, n, x, rfl⟩ <;> simp [Event.isCreate]
  · rw [List.filter_eq_nil_iff]
    intro e he
    rcases h e he with ⟨l, x, rfl⟩ | ⟨l, n, x, rfl⟩ <;> simp [Event.isMkdirAll]

/-- A trace that ends at its only failure: the failure found at any place of
it is followed by the close alone. -/
theorem split_at_failure (pre a b : Trace) (e0 e : Event) (h : Option String) (err : Err)
    (hpre : ∀ x ∈ pre, x.fileFailure = none)
    (hs : pre ++ [e0, .close h] = a ++ e :: b) (he : e.fileFailure = some err) :
    e = e0 ∧ b = [.close h] := by
  induction pre generalizing a with
  | nil =>
    cases a with
    | nil =>
      simp only [List.nil_append, List.cons.injEq] at hs
      exact ⟨hs.1.symm, hs.2.symm⟩
    | cons x a =>
      cases a with
      | nil =>
        simp only [List.nil_append, List.cons_append, List.cons.injEq] at hs
        obtain ⟨-, h2, -⟩ := hs
        subst h2
        cases he
      | cons y a =>
        simp at hs
  | cons p pre ih =>
    cases a with
    | nil =>
      simp only [List.cons_append, List.nil_append, List.cons.injEq] at hs
      obtain ⟨h1, -⟩ := hs
      subst h1
      have := hpre p (List.mem_cons_self _ _)
      rw [this] at he
      cases he
    | cons x a =>
      simp only [List.cons_append, List.cons.injEq] at hs
      exact ih a (fun y hy => hpre y (List.mem_cons_of_mem _ hy)) hs.2

/-- The split form of `EndsAtFailure`. -/
theorem EndsAtFailure.split {w : World} {D : String} {evs : Trace} {r : Res Unit}
    (h : EndsAtFailure w D evs r) (a b : Trace) (e : Event) (err : Err)
    (hs : evs = a ++ e :: b) (he : e.fileFailure = some err) :
    (∃ h, b = [.close h]) ∧ ReturnsFailureOf w D e err r := by
  rcases h with h | ⟨pre, e0, hd, err0, h1, h2, h3, h4⟩
  · have := h e (by rw [hs]; simp)
    rw [this] at he
    cases he
  · rw [h1] at hs
    obtain ⟨rfl, hb⟩ := split_at_failure pre a b e0 e hd err h2 hs he
    rw [h3] at he
    cases he
    exact ⟨⟨hd, hb⟩, h4⟩

/-- A clean stretch of trace in front does not change `EndsAtFailure`. -/
theorem EndsAtFailure.after_clean {w : World} {D : String} {evs : Trace} {r : Res Unit}
    (h : EndsAtFailure w D evs r) (pre : Trace) (hpre : ∀ x ∈ pre, x.fileFailure = none) :
    EndsAtFailure w D (pre ++ evs) r := by
  rcases h with h | ⟨p, e0, hd, err0, h1, h2, h3, h4⟩
  · left
    intro e he
    rcases List.mem_append.mp he with he | he
    · exact hpre e he
    · exact h e he
  · right
    refine ⟨pre ++ p, e0, hd, err0, by simp [h1], ?_, h3, h4⟩
    intro x hx
    rcases List.mem_append.mp hx with hx | hx
    · exact hpre x hx
    · exact h2 x hx

/-- A result that is not an error was reached without a failed creation or
write. -/
theorem EndsAtFailure.no_failure {w : World} {D : String} {evs : Trace} {r : Res Unit}
    (h : EndsAtFailure w D evs r) (hr : ∀ e, r ≠ .err e) :
    ∀ e ∈ evs, e.fileFailure = none := by
  rcases h with h | ⟨p, e0, hd, err0, -, -, -, name, h4 | h4⟩
  · exact h
  · exact absurd h4.2 (hr _)
  · exact absurd h4.2 (hr _)

/-- One call of `writeRandomFile`: its trace ends at its first failed
creation or write, if any; a successful call made no directory and created
one file, named by ten letters in `D`. -/
theorem writeRandomFile_summary (w : World) (fuel : Nat) (D : String) (S : Int) (tr : Trace) :
    ∃ evs, (writeRandomFile w fuel D S tr).2 = tr ++ evs ∧
      EndsAtFailure w D evs (writeRandomFile w fuel D S tr).1 ∧
      evs.filter Event.isMkdirAll = [] ∧
      ((writeRandomFile w fuel D S tr).1 = .ok () →
        ∃ c, GoodCreate w D c ∧ evs.filter Event.isCreate = [c]) := by
  rcases writeRandomFile_cases w fuel D S tr with
    ⟨evs, h1, -, h3, h4, -⟩ | ⟨name, draws, -, hlen, hch, hcase⟩
  · obtain ⟨c1, -, c3⟩ := isRandInt_clean evs h1
    exact ⟨evs, h3, Or.inl c1, c3, fun h => absurd h h4⟩
  · obtain ⟨c1, c2, c3⟩ := isRandInt_clean _ (drawEvents_isRandInt draws)
    rcases hcase with ⟨err, -, hres⟩ | ⟨-, evs, r, hrun, -, hres⟩
    · refine ⟨_, by rw [hres], ?_, ?_, ?_⟩
      · rw [hres]
        right
        exact ⟨drawEvents draws, .create (w.join D name) (some err), none, err, rfl, c1, rfl,
          name, Or.inl ⟨rfl, rfl⟩⟩
      · simp [List.filter_append, c3, List.filter_cons, Event.isMkdirAll]
      · rw [hres]
        intro h
        cases h
    · obtain ⟨l2, l3⟩ := loopEvents_clean evs hrun.events
      refine ⟨_, by rw [hres], ?_, ?_, ?_⟩
      · rw [hres]
        rcases hrun.failure with hcl | ⟨pre, l, n, err, f1, f2, f3⟩
        · left
          intro e he
          simp only [List.mem_append, List.mem_cons] at he
          rcases he with he | rfl | he | he
          · exact c1 e he
          · rfl
          · exact hcl e he
          · split at he
            · cases he
            · simp only [List.mem_singleton] at he
              subst he
              rfl
        · right
          have hro : r ≠ .outOfFuel := by rw [f3]; simp
          simp only [hro, if_false]
          refine ⟨drawEvents draws ++ .create (w.join D name) none :: pre,
            .write (w.join D name) l n (some err), some (w.join D name), err, ?_, ?_, rfl,
            name, Or.inr ⟨⟨l, n, rfl⟩, f3⟩⟩
          · simp [f1]
          · intro x hx
            simp only [List.mem_append, List.mem_cons] at hx
            rcases hx with hx | rfl | hx
            · exact c1 x hx
            · rfl
            · exact f2 x hx
      · have : (if r = Res.outOfFuel then ([] : Trace)
            else [Event.close (some (w.join D name))]).filter Event.isMkdirAll = [] := by
          split <;> simp [Event.isMkdirAll]
        simp [List.filter_append, c3, l3, List.filter_cons, Event.isMkdirAll, this]
      · rw [hres]
        intro hok
        simp only at hok
        subst hok
        refine ⟨.create (w.join D name) none, ⟨name, hlen, hch, rfl⟩, ?_⟩
        simp [List.filter_append, c2, l2, List.filter_cons, Event.isCreate]

/-- The loop of `writer`: its trace ends at its first failed creation or
write, if any; a successful loop made no directory and created `k` files, each
named by ten letters in `D`. -/
theorem writerLoop_summary (w : World) (fuel : Nat) (D : String) (S : Int) :
    ∀ (k : Nat) (tr : Trace),
      ∃ evs, (writerLoop w fuel D S k tr).2 = tr ++ evs ∧
        EndsAtFailure w D evs (writerLoop w fuel D S k tr).1 ∧
        evs.filter Event.isMkdirAll = [] ∧
        ((writerLoop w fuel D S k tr).1 = .ok () →
          (evs.filter Event.isCreate).length = k ∧
            ∀ e ∈ evs.filter Event.isCreate, GoodCreate w D e) := by
  intro k
  induction k with
  | zero =>
    intro tr
    exact ⟨[], by simp [writerLoop], Or.inl (by simp), rfl, fun _ => by simp⟩
  | succ k ih =>
    intro tr
    obtain ⟨evs, h1, h2, h3, h4⟩ := writeRandomFile_summary w fuel D S tr
    rcases hf : writeRandomFile w fuel D S tr with ⟨r, tr1⟩
    rw [hf] at h1 h2 h4
    simp only at h1 h2 h4
    subst h1
    cases r with
    | ok u =>
      obtain ⟨evs2, g1, g2, g3, g4⟩ := ih (tr ++ evs)
      obtain ⟨c, hc, hcf⟩ := h4 rfl
      refine ⟨evs ++ evs2, ?_, ?_, ?_, ?_⟩
      · simp only [writerLoop, hf, g1, List.append_assoc]
      · simp only [writerLoop, hf]
        exact g2.after_clean evs (h2.no_failure (by simp))
      · simp [List.filter_append, h3, g3]
      · simp only [writerLoop, hf]
        intro hok
        obtain ⟨q1, q2⟩ := g4 hok
        constructor
        · simp only [List.filter_append, hcf, List.length_append, List.length_singleton, q1]
          omega
        · intro e he
          simp only [List.filter_append, hcf, List.mem_append, List.mem_singleton] at he
          rcases he with rfl | he
          · exact hc
          · exact q2 e he
    | err e =>
      refine ⟨evs, ?_, ?_, h3, ?_⟩ <;> simp only [writerLoop, hf]
      · exact h2
      · intro h; cases h
    | panic =>
      refine ⟨evs, ?_, ?_, h3, ?_⟩ <;> simp only [writerLoop, hf]
      · exact h2
      · intro h; cases h
    | outOfFuel =>
      refine ⟨evs, ?_, ?_, h3, ?_⟩ <;> simp only [writerLoop, hf]
      · exact h2
      · intro h; cases h

/-- The directory `writer` targets: `base` itself, or `base` joined with ten
letters drawn first. -/
theorem writerDirPath_summary (w : World) (base : String) (flag : Bool) (tr : Trace) :
    ∃ evs, (writerDirPath w base flag tr).2 = tr ++ evs ∧ (∀ e ∈ evs, e.isRandInt = true) ∧
      ∀ D, (writerDirPath w base flag tr).1 = .ok D →
        (flag = true → ∃ ident : String, ident.length = 10 ∧
          (∀ c ∈ ident.toList, c ∈ charSet) ∧ D = w.join base ident) ∧
        (flag = false → D = base ∧ evs = []) := by
  cases flag with
  | false =>
    refine ⟨[], by simp [writerDirPath], by simp, ?_⟩
    intro D hD
    simp only [writerDirPath, Bool.false_eq_true, if_false, Res.ok.injEq] at hD
    exact ⟨fun h => (by cases h), fun _ => ⟨hD.symm, rfl⟩⟩
  | true =>
    obtain ⟨evs, h1, h2⟩ := randomString_trace w fileNameLen tr
    rcases hrs : randomString w fileNameLen tr with ⟨rs, tr1⟩
    rw [hrs] at h1
    simp only at h1
    subst h1
    cases rs with
    | ok name =>
      obtain ⟨draws, -, -, h3, h4, -⟩ := randomString_ok_inv w _ _ _ _ hrs
      refine ⟨evs, by simp [writerDirPath, hrs], h2, ?_⟩
      intro D hD
      simp only [writerDirPath, if_true, hrs, Res.ok.injEq] at hD
      exact ⟨fun _ => ⟨name, by simpa [fileNameLen] using h3, h4, hD.symm⟩,
        fun h => (by cases h)⟩
    | err e =>
      exact ⟨evs, by simp [writerDirPath, hrs], h2, by simp [writerDirPath, hrs]⟩
    | panic =>
      exact ⟨evs, by simp [writerDirPath, hrs], h2, by simp [writerDirPath, hrs]⟩
    | outOfFuel =>
      exact ⟨evs, by simp [writerDirPath, hrs], h2, by simp [writerDirPath, hrs]⟩

/-- C3: for every base directory, file size, file count `N` and create-subdir
flag, a `writer` that returns success issued exactly one directory creation,
on its target `D` (`base` joined with ten letters of the alphabet when the
flag is true, `base` itself when it is false), preceded by the draws of that
name alone and followed by exactly `N` file creations (none when `N < 0`),
each at `D` joined with ten letters; and in every run, a file creation or a
write that fails is followed by the deferred close alone, and `writer` returns
the error `writeRandomFile` built from it: no further file is attempted. -/
theorem writer_one_directory_N_files (w : World) (fuel : Nat) (base : String) (S N : Int)
    (flag : Bool) (tr : Trace) :
    ∃ evs, (writer w fuel base S N flag tr).2 = tr ++ evs ∧
      ((writer w fuel base S N flag tr).1 = .ok () →
        ∃ D pre post, evs = pre ++ .mkdirAll D none :: post ∧
          (∀ e ∈ pre, e.isRandInt = true) ∧
          (flag = true → ∃ ident : String, ident.length = 10 ∧
            (∀ c ∈ ident.toList, c ∈ charSet) ∧ D = w.join base ident) ∧
          (flag = false → D = base ∧ pre = []) ∧
          post.filter Event.isMkdirAll = [] ∧
          (post.filter Event.isCreate).length = N.toNat ∧
          ∀ e ∈ post.filter Event.isCreate, GoodCreate w D e) ∧
      ∀ (a b : Trace) (e : Event) (err : Err), evs = a ++ e :: b →
        e.fileFailure = some err →
        (∃ h, b = [.close h]) ∧
          ∃ D, ReturnsFailureOf w D e err (writer w fuel base S N flag tr).1 ∧
            (flag = true → ∃ ident : String, ident.length = 10 ∧
              (∀ c ∈ ident.toList, c ∈ charSet) ∧ D = w.join base ident) ∧
            (flag = false → D = base) := by
  obtain ⟨evs0, h1, h2, h3⟩ := writerDirPath_summary w base flag tr
  obtain ⟨c1, -, -⟩ := isRandInt_clean evs0 h2
  rcases hd : writerDirPath w base flag tr with ⟨rd, tr1⟩
  rw [hd] at h1 h3
  simp only at h1 h3
  subst h1
  have early : ∀ (r : Res Unit) (evs : Trace), (∀ u, r ≠ .ok u) →
      (∀ e ∈ evs, e.fileFailure = none) →
      writer w fuel base S N flag tr = (r, tr ++ evs) →
      ∃ evs, (writer w fuel base S N flag tr).2 = tr ++ evs ∧
      ((writer w fuel base S N flag tr).1 = .ok () →
        ∃ D pre post, evs = pre ++ .mkdirAll D none :: post ∧
          (∀ e ∈ pre, e.isRandInt = true) ∧
          (flag = true → ∃ ident : String, ident.length = 10 ∧
            (∀ c ∈ ident.toList, c ∈ charSet) ∧ D = w.join base ident) ∧
          (flag = false → D = base ∧ pre = []) ∧
          post.filter Event.isMkdirAll = [] ∧
          (post.filter Event.isCreate).length = N.toNat ∧
          ∀ e ∈ post.filter Event.isCreate, GoodCreate w D e) ∧
      ∀ (a b : Trace) (e : Event) (err : Err), evs = a ++ e :: b →
        e.fileFailure = some err →
        (∃ h, b = [.close h]) ∧
          ∃ D, ReturnsFailureOf w D e err (writer w fuel base S N flag tr).1 ∧
            (flag = true → ∃ ident : String, ident.length = 10 ∧
              (∀ c ∈ ident.toList, c ∈ charSet) ∧ D = w.join base ident) ∧
            (flag = false → D = base) := by
    intro r evs hr hcl hw
    refine ⟨evs, by rw [hw], ?_, ?_⟩
    · rw [hw]
      intro h
      exact absurd h (hr _)
    · intro a b e err hs he
      have := hcl e (by rw [hs]; simp)
      rw [this] at he
      cases he
  cases rd with
  | err e => exact early (.err e) evs0 (by simp) c1 (by simp [writer, hd])
  | panic => exact early .panic evs0 (by simp) c1 (by simp [writer, hd])
  | outOfFuel => exact early .outOfFuel evs0 (by simp) c1 (by simp [writer, hd])
  | ok D =>
    obtain ⟨t1, t2⟩ := h3 D rfl
    cases hm : w.mkdirAll (tr ++ evs0) D with
    | some e =>
      refine early (.err (.errorfWrap "failed to create directory %q: %v" [D] e))
        (evs0 ++ [.mkdirAll D (some e)]) (by simp) ?_ (by simp [writer, hd, hm])
      intro x hx
      rcases List.mem_append.mp hx with hx | hx
      · exact c1 x hx
      · simp only [List.mem_singleton] at hx
        subst hx
        rfl
    | none =>
      obtain ⟨evs, g1, g2, g3, g4⟩ := writerLoop_summary w fuel D S N.toNat
        (tr ++ evs0 ++ [.mkdirAll D none])
      have hw1 : (writer w fuel base S N flag tr).1 =
          (writerLoop w fuel D S N.toNat (tr ++ evs0 ++ [.mkdirAll D none])).1 := by
        simp [writer, hd, hm]
      have hw2 : (writer w fuel base S N flag tr).2 =
          (writerLoop w fuel D S N.toNat (tr ++ evs0 ++ [.mkdirAll D none])).2 := by
        simp [writer, hd, hm]
      refine ⟨evs0 ++ .mkdirAll D none :: evs, ?_, ?_, ?_⟩
      · rw [hw2, g1]
        simp
      · rw [hw1]
        intro hok
        obtain ⟨q1, q2⟩ := g4 hok
        exact ⟨D, evs0, evs, rfl, h2, t1, t2, g3, q1, q2⟩
      · rw [hw1]
        intro a b e err hs he
        have hpre : ∀ x ∈ evs0 ++ [Event.mkdirAll D none], x.fileFailure = none := by
          intro x hx
          rcases List.mem_append.mp hx with hx | hx
          · exact c1 x hx
          · simp only [List.mem_singleton] at hx
            subst hx
            rfl
        have hall := g2.after_clean _ hpre
        obtain ⟨s1, s2⟩ := hall.split a b e err (by rw [← hs]; simp) he
        exact ⟨s1, D, s2, t1, fun h => (t2 h).1⟩

/-- C3 at a world where every call succeeds: a private directory and two
files. -/
theorem writer_one_directory_N_files_witness :
    ∃ evs D pre post, (writer demoWorld 10 "d" 10 2 true []).2 = [] ++ evs ∧
      evs = pre ++ .mkdirAll D none :: post ∧
      (post.filter Event.isCreate).length = 2 ∧
      ∀ e ∈ post.filter Event.isCreate, GoodCreate demoWorld D e := by
  obtain ⟨evs, h1, h2, -⟩ := writer_one_directory_N_files demoWorld 10 "d" 10 2 true []
  obtain ⟨D, pre, post, g1, -, -, -, -, g6, g7⟩ := h2 (by decide)
  exact ⟨evs, D, pre, post, h1, g1, g6, g7⟩

/-! ## Facts about `recursiveListDir` and `reader` -/

/-- Successful listings in front do not change `EndsAtFailedListing`. -/
theorem EndsAtFailedListing.after_listed {evs : Trace} {r : Res Unit}
    (h : EndsAtFailedListing evs r) (pre : Trace)
    (hpre : ∀ e ∈ pre, ∃ p, e = Event.readDir p true) :
    EndsAtFailedListing (pre ++ evs) r := by
  rcases h with ⟨h1, h2⟩ | ⟨p0, p, h1, h2, h3⟩
  · left
    refine ⟨?_, h2⟩
    intro e he
    rcases List.mem_append.mp he with he | he
    · exact hpre e he
    · exact h1 e he
  · right
    refine ⟨pre ++ p0, p, by simp [h1], ?_, h3⟩
    intro e he
    rcases List.mem_append.mp he with he | he
    · exact hpre e he
    · exact h2 e he

/-- A run that did not end in an error saw successful listings only. -/
theorem EndsAtFailedListing.all_listed {evs : Trace} {r : Res Unit}
    (h : EndsAtFailedListing evs r) (hr : ∀ e, r ≠ .err e) :
    ∀ e ∈ evs, ∃ p, e = Event.readDir p true := by
  rcases h with ⟨h1, -⟩ | ⟨p0, p, -, -, h3⟩
  · exact h1
  · exact absurd h3 (hr _)

/-- The loop over a listing, given what the recursive call does. -/
theorem listLoop_summary (w : World) (recurse : String → Trace → Res Unit × Trace)
    (hrec : ∀ d tr, ∃ evs, (recurse d tr).2 = tr ++ evs ∧
      EndsAtFailedListing evs (recurse d tr).1 ∧ (recurse d tr).1 ≠ .panic)
    (dir : String) :
    ∀ (files : List DirEntry) (tr : Trace),
      ∃ evs, (listLoop w recurse dir files tr).2 = tr ++ evs ∧
        EndsAtFailedListing evs (listLoop w recurse dir files tr).1 ∧
        (listLoop w recurse dir files tr).1 ≠ .panic := by
  intro files
  induction files with
  | nil =>
    intro tr
    exact ⟨[], by simp [listLoop], Or.inl ⟨by simp, by simp [listLoop]⟩, by simp [listLoop]⟩
  | cons f rest ih =>
    intro tr
    by_cases hf : f.isDir = true
    · obtain ⟨evs, h1, h2, h3⟩ := hrec (w.join dir f.name) tr
      rcases hr : recurse (w.join dir f.name) tr with ⟨r, tr1⟩
      rw [hr] at h1 h2 h3
      simp only at h1 h2 h3
      subst h1
      cases r with
      | ok u =>
        obtain ⟨evs2, g1, g2, g3⟩ := ih (tr ++ evs)
        refine ⟨evs ++ evs2, ?_, ?_, ?_⟩
        · simp only [listLoop, hf, if_true, hr, g1, List.append_assoc]
        · simp only [listLoop, hf, if_true, hr]
          exact g2.after_listed evs (h2.all_listed (by simp))
        · simp only [listLoop, hf, if_true, hr]
          exact g3
      | err e =>
        refine ⟨evs, ?_, ?_, ?_⟩ <;> simp only [listLoop, hf, if_true, hr]
        · exact h2
        · simp
      | panic => exact absurd rfl h3
      | outOfFuel =>
        refine ⟨evs, ?_, ?_, ?_⟩ <;> simp only [listLoop, hf, if_true, hr]
        · exact h2
        · simp
    · obtain ⟨evs2, g1, g2, g3⟩ := ih tr
      refine ⟨evs2, ?_, ?_, ?_⟩ <;> simp only [listLoop, hf] <;> assumption

/-- In any world, `recursiveListDir` lists directories until a listing fails,
stops there, and returns the error for it. -/
theorem recursiveListDir_summary (w : World) :
    ∀ (fuel : Nat) (dir : String) (tr : Trace),
      ∃ evs, (recursiveListDir w fuel dir tr).2 = tr ++ evs ∧
        EndsAtFailedListing evs (recursiveListDir w fuel dir tr).1 ∧
        (recursiveListDir w fuel dir tr).1 ≠ .panic := by
  intro fuel
  induction fuel with
  | zero =>
    intro dir tr
    exact ⟨[], by simp [recursiveListDir],
      Or.inl ⟨by simp, by simp [recursiveListDir]⟩, by simp [recursiveListDir]⟩
  | succ fuel ih =>
    intro dir tr
    cases hl : w.readDir tr dir with
    | error e =>
      refine ⟨[.readDir dir false], ?_, ?_, ?_⟩ <;> simp only [recursiveListDir, hl]
      · exact Or.inr ⟨[], dir, rfl, by simp, rfl⟩
      · simp
    | ok files =>
      obtain ⟨evs, h1, h2, h3⟩ := listLoop_summary w (recursiveListDir w fuel) ih dir files
        (tr ++ [.readDir dir true])
      refine ⟨.readDir dir true :: evs, ?_, ?_, ?_⟩ <;> simp only [recursiveListDir, hl]
      · simp [h1]
      · exact h2.after_listed [.readDir dir true] (by simp)
      · exact h3

/-- In any world, the loop of `reader` lists directories until a listing
fails, stops there, and returns the error for it. -/
theorem readerLoop_summary (w : World) (fuel : Nat) (dir : String) :
    ∀ (k : Nat) (tr : Trace),
      ∃ evs, (readerLoop w fuel dir k tr).2 = tr ++ evs ∧
        EndsAtFailedListing evs (readerLoop w fuel dir k tr).1 := by
  intro k
  induction k with
  | zero =>
    intro tr
    exact ⟨[], by simp [readerLoop], Or.inl ⟨by simp, by simp [readerLoop]⟩⟩
  | succ k ih =>
    intro tr
    obtain ⟨evs, h1, h2, h3⟩ := recursiveListDir_summary w fuel dir tr
    rcases hr : recursiveListDir w fuel dir tr with ⟨r, tr1⟩
    rw [hr] at h1 h2 h3
    simp only at h1 h2 h3
    subst h1
    cases r with
    | ok u =>
      obtain ⟨evs2, g1, g2⟩ := ih (tr ++ evs)
      refine ⟨evs ++ evs2, ?_, ?_⟩
      · simp only [readerLoop, hr, g1, List.append_assoc]
      · simp only [readerLoop, hr]
        exact g2.after_listed evs (h2.all_listed (by simp))
    | err e =>
      refine ⟨evs, ?_, ?_⟩ <;> simp only [readerLoop, hr]
      exact h2
    | panic => exact absurd rfl h3
    | outOfFuel =>
      refine ⟨evs, ?_, ?_⟩ <;> simp only [readerLoop, hr]
      exact h2

/-- C6: for every world (every directory tree, changing or not) and every
repetition count `k`, `reader(base_dir, k)` performs directory listings only,
and returns an error if and only if some listing it attempts fails; the failed
listing is the last operation it performs (nothing follows it: no listing of
the same directory again, none of the remaining siblings or subtrees, none of
the remaining repetitions), no listing before it failed, and the error
returned names the directory of the failed listing. -/
theorem reader_error_iff_listing_failed (w : World) (fuel : Nat) (base : String) (k : Int)
    (tr : Trace) :
    ∃ evs, (reader w fuel base k tr).2 = tr ++ evs ∧
      (∀ e ∈ evs, e.isReadDir = true) ∧
      ((∃ e, (reader w fuel base k tr).1 = .err e) ↔ ∃ p, Event.readDir p false ∈ evs) ∧
      ∀ (a b : Trace) (p : String), evs = a ++ .readDir p false :: b →
        b = [] ∧ (∀ e ∈ a, ∃ q, e = .readDir q true) ∧
          (reader w fuel base k tr).1 =
            .err (.errorf "failed to read files in directory %q" [p]) := by
  obtain ⟨evs, h1, h2⟩ := readerLoop_summary w fuel base k.toNat tr
  refine ⟨evs, h1, ?_, ?_, ?_⟩
  · intro e he
    rcases h2 with ⟨g1, -⟩ | ⟨pre, p, g1, g2, -⟩
    · obtain ⟨q, rfl⟩ := g1 e he
      rfl
    · rw [g1] at he
      rcases List.mem_append.mp he with he | he
      · obtain ⟨q, rfl⟩ := g2 e he
        rfl
      · simp only [List.mem_singleton] at he
        subst he
        rfl
  · constructor
    · rintro ⟨e, he⟩
      rcases h2 with ⟨-, g2⟩ | ⟨pre, p, g1, -, -⟩
      · exact absurd he (g2 e)
      · exact ⟨p, by rw [g1]; simp⟩
    · rintro ⟨p, hp⟩
      rcases h2 with ⟨g1, -⟩ | ⟨pre, q, -, -, g3⟩
      · obtain ⟨q, hq⟩ := g1 _ hp
        cases hq
      · exact ⟨_, g3⟩
  · intro a b p hs
    rcases h2 with ⟨g1, -⟩ | ⟨pre, q, g1, g2, g3⟩
    · obtain ⟨q, hq⟩ := g1 (.readDir p false) (by rw [hs]; simp)
      cases hq
    · rw [g1] at hs
      have key : ∀ (pre a : Trace), (∀ e ∈ pre, ∃ q, e = Event.readDir q true) →
          pre ++ [Event.readDir q false] = a ++ Event.readDir p false :: b →
          b = [] ∧ a = pre ∧ p = q := by
        intro pre
        induction pre with
        | nil =>
          intro a _ hs
          cases a with
          | nil =>
            simp only [List.nil_append, List.cons.injEq, Event.readDir.injEq, and_true] at hs
            exact ⟨hs.2.symm, rfl, hs.1.symm⟩
          | cons x a => simp at hs
        | cons y pre ih =>
          intro a hpre hs
          cases a with
          | nil =>
            simp only [List.cons_append, List.nil_append, List.cons.injEq] at hs
            obtain ⟨q2, hq2⟩ := hpre y (List.mem_cons_self _ _)
            rw [hq2] at hs
            simp at hs
          | cons x a =>
            simp only [List.cons_append, List.cons.injEq] at hs
            obtain ⟨i1, i2, i3⟩ := ih a (fun e he => hpre e (List.mem_cons_of_mem _ he)) hs.2
            exact ⟨i1, by rw [hs.1, i2], i3⟩
      obtain ⟨k1, k2, k3⟩ := key pre a g2 hs
      subst k2 k3
      exact ⟨k1, g2, g3⟩

/-- C6 at a directory that cannot be listed: the first of three repetitions
fails and nothing follows. -/
theorem reader_error_iff_listing_failed_witness :
    ∃ evs, (reader demoWorld 5 "nosuch" 3 []).2 = [] ++ evs ∧
      (∃ p, Event.readDir p false ∈ evs) ∧
      (∀ (a b : Trace) (p : String), evs = a ++ .readDir p false :: b → b = []) := by
  obtain ⟨evs, h1, -, h3, h4⟩ := reader_error_iff_listing_failed demoWorld 5 "nosuch" 3 []
  exact ⟨evs, h1,
    h3.mp ⟨.errorf "failed to read files in directory %q" ["nosuch"], by decide⟩,
    fun a b p hs => (h4 a b p hs).1⟩

/-- On a tree that the world holds unchanged, the loop over the listing of a
directory lists every directory nested under it, once each, and succeeds, when
`fuel` covers the depth. -/
theorem listLoop_tree (w : World) :
    ∀ (t : Forest) (fuel : Nat) (dir : String) (tr : Trace),
      subdirsListed w dir t → t.depth ≤ fuel →
      listLoop w (recursiveListDir w fuel) dir t.entries tr =
        (.ok (), tr ++ listEvents (subPaths w.join dir t)) := by
  intro t
  induction t with
  | nil =>
    intro fuel dir tr _ _
    simp [Forest.entries, listLoop, subPaths, listEvents]
  | file name rest ih =>
    intro fuel dir tr hs hd
    simp only [Forest.entries, listLoop, Bool.false_eq_true, if_false, subPaths]
    exact ih fuel dir tr hs hd
  | dir name kids rest ihk ihr =>
    intro fuel dir tr hs hd
    obtain ⟨s1, s2, s3⟩ := hs
    simp only [Forest.depth] at hd
    cases fuel with
    | zero => omega
    | succ fuel =>
      have hk := ihk fuel (w.join dir name) (tr ++ [.readDir (w.join dir name) true]) s2
        (by omega)
      have hr := ihr (fuel + 1) dir
        (tr ++ [.readDir (w.join dir name) true] ++
          listEvents (subPaths w.join (w.join dir name) kids)) s3 (by omega)
      have hrec : recursiveListDir w (fuel + 1) (w.join dir name) tr =
          (.ok (), tr ++ [.readDir (w.join dir name) true] ++
            listEvents (subPaths w.join (w.join dir name) kids)) := by
        simp only [recursiveListDir, s1 tr, hk]
      simp only [Forest.entries, listLoop, if_true, hrec, hr, subPaths]
      simp [listEvents]

/-- On a tree that the world holds unchanged, `recursiveListDir` lists every
directory of the tree, once each, and succeeds, when `fuel` exceeds the
depth. -/
theorem recursiveListDir_tree (w : World) (t : Forest) (fuel : Nat) (dir : String)
    (tr : Trace) (h : Realises w dir t) (hd : t.depth < fuel) :
    recursiveListDir w fuel dir tr = (.ok (), tr ++ listEvents (dirPaths w.join dir t)) := by
  cases fuel with
  | zero => omega
  | succ fuel =>
    simp only [recursiveListDir, h.1 tr,
      listLoop_tree w t fuel dir _ h.2 (by omega), dirPaths]
    simp [listEvents]

theorem readerLoop_tree (w : World) (t : Forest) (fuel : Nat) (dir : String)
    (h : Realises w dir t) (hd : t.depth < fuel) :
    ∀ (k : Nat) (tr : Trace),
      readerLoop w fuel dir k tr =
        (.ok (), tr ++ (List.replicate k (listEvents (dirPaths w.join dir t))).flatten) := by
  intro k
  induction k with
  | zero => intro tr; simp [readerLoop]
  | succ k ih =>
    intro tr
    simp only [readerLoop, recursiveListDir_tree w t fuel dir tr h hd, ih,
      List.replicate_succ, List.flatten_cons, List.append_assoc]

/-- C5: for every finite directory tree rooted at `base_dir` that the world
holds unchanged and in which every directory can be listed, and every
repetition count `k ≥ 0`, `reader(base_dir, k)` returns success (the
recursion is no deeper than the tree), and its trace is `k` repetitions of a
successful listing of every directory of the tree (the root and every
directory nested under it), each directory once per repetition: it performs
no other operation. -/
theorem reader_lists_tree_k_times (w : World) (t : Forest) (fuel : Nat) (base : String)
    (k : Int) (tr : Trace) (hk : 0 ≤ k) (htree : Realises w base t)
    (hfuel : t.depth < fuel) :
    ∃ evs, reader w fuel base k tr = (.ok (), tr ++ evs) ∧
      evs = (List.replicate k.toNat (listEvents (dirPaths w.join base t))).flatten ∧
      (evs.length : Int) = k * (dirPaths w.join base t).length ∧
      (∀ e ∈ evs, e.isReadDir = true) ∧
      ∀ p, ((evs.count (.readDir p true) : Nat) : Int) = k * (dirPaths w.join base t).count p := by
  refine ⟨_, readerLoop_tree w t fuel base htree hfuel k.toNat tr, rfl, ?_, ?_, ?_⟩
  · simp only [List.length_flatten, List.map_replicate, List.sum_replicate, listEvents,
      List.length_map, smul_eq_mul, Nat.cast_mul]
    rw [Int.toNat_of_nonneg hk]
  · intro e he
    simp only [List.mem_flatten, List.mem_replicate] at he
    obtain ⟨l, ⟨-, rfl⟩, he⟩ := he
    simp only [listEvents, List.mem_map] at he
    obtain ⟨p, -, rfl⟩ := he
    rfl
  · intro p
    have hinj : Function.Injective (fun q => Event.readDir q true) := by
      intro a b hab
      simpa using hab
    have hc : (listEvents (dirPaths w.join base t)).count (.readDir p true) =
        (dirPaths w.join base t).count p := by
      simpa [listEvents] using List.count_map_of_injective (dirPaths w.join base t) _ hinj p
    simp only [List.count_flatten, List.map_replicate, List.sum_replicate, hc, smul_eq_mul,
      Nat.cast_mul]
    rw [Int.toNat_of_nonneg hk]

/-- The world `demoWorld` holds `demoTree` at `base`. -/
theorem demoWorld_realises : Realises demoWorld "base" demoTree := by
  exact ⟨fun _ => rfl, fun _ => rfl, trivial, fun _ => rfl, trivial, trivial⟩

/-- C5 at the demo tree, which has three directories, listed twice. -/
theorem reader_lists_tree_k_times_witness :
    ∃ evs, reader demoWorld 2 "base" 2 [] = (.ok (), [] ++ evs) ∧
      evs = (List.replicate (2 : Int).toNat
        (listEvents (dirPaths demoWorld.join "base" demoTree))).flatten ∧
      (evs.length : Int) = 2 * (dirPaths demoWorld.join "base" demoTree).length ∧
      (∀ e ∈ evs, e.isReadDir = true) ∧
      ∀ p, ((evs.count (.readDir p true) : Nat) : Int) =
        2 * (dirPaths demoWorld.join "base" demoTree).count p :=
  reader_lists_tree_k_times demoWorld demoTree 2 "base" 2 [] (by decide) demoWorld_realises
    (by decide)

/-! ## Facts about `cleanup` -/

/-- The loop of `cleanup`, from index `i`: one removal per entry that is not a
directory, one goroutine per entry that is, whatever the removals answer. -/
theorem cleanupLoop_summary (w : World) (base : String) :
    ∀ (files : List DirEntry) (i : Nat) (tr : Trace),
      ∃ evs, cleanupLoop w base files i tr = tr ++ evs ∧
        evs.filterMap Event.removedPath =
          (files.filter (fun f => !f.isDir)).map (fun f => w.join base f.name) ∧
        evs.filterMap Event.spawned =
          ((files.enumFrom i).filter (fun x => x.2.isDir)).map
            (fun x => ⟨x.1, w.join base x.2.name⟩) ∧
        (evs.filter (fun e => decide (e = .wgAdd))).length =
          (files.filter (fun f => f.isDir)).length := by
  intro files
  induction files with
  | nil =>
    intro i tr
    exact ⟨[], by simp [cleanupLoop]⟩
  | cons f rest ih =>
    intro i tr
    by_cases hf : f.isDir = true
    · obtain ⟨evs, h1, h2, h3, h4⟩ := ih (i + 1)
        (tr ++ [.wgAdd, .goDeleter ⟨i, w.join base f.name⟩])
      refine ⟨.wgAdd :: .goDeleter ⟨i, w.join base f.name⟩ :: evs, ?_, ?_, ?_, ?_⟩
      · simp [cleanupLoop, hf, h1]
      · simp [List.filterMap_cons, Event.removedPath, h2, List.filter_cons, hf]
      · simp [List.filterMap_cons, Event.spawned, h3, List.filter_cons, hf]
      · simp [List.filter_cons, h4, hf]
    · simp only [Bool.not_eq_true] at hf
      cases hr : w.remove tr (w.join base f.name) with
      | some e =>
        obtain ⟨evs, h1, h2, h3, h4⟩ := ih (i + 1)
          (tr ++ [.remove (w.join base f.name) (some e),
            .printf "failed to delete file %q" [w.join base f.name]])
        refine ⟨.remove (w.join base f.name) (some e) ::
          .printf "failed to delete file %q" [w.join base f.name] :: evs, ?_, ?_, ?_, ?_⟩
        · simp [cleanupLoop, hf, hr, h1]
        · simp [List.filterMap_cons, Event.removedPath, h2, List.filter_cons, hf]
        · simp [List.filterMap_cons, Event.spawned, h3, List.filter_cons, hf]
        · simp [List.filter_cons, h4, hf]
      | none =>
        obtain ⟨evs, h1, h2, h3, h4⟩ := ih (i + 1)
          (tr ++ [.remove (w.join base f.name) none])
        refine ⟨.remove (w.join base f.name) none :: evs, ?_, ?_, ?_, ?_⟩
        · simp [cleanupLoop, hf, hr, h1]
        · simp [List.filterMap_cons, Event.removedPath, h2, List.filter_cons, hf]
        · simp [List.filterMap_cons, Event.spawned, h3, List.filter_cons, hf]
        · simp [List.filter_cons, h4, hf]

/-- On a directory whose listing is always empty, every run of `cleanup` in a
succession lists it and does nothing else. -/
theorem cleanupRuns_empty (w : World) (base : String)
    (hempty : ∀ h, w.readDir h base = .ok []) :
    ∀ (k : Nat) (tr : Trace),
      cleanupRuns w base k tr =
        (List.replicate k (.ok ()), tr ++ List.replicate k (.readDir base true)) := by
  intro k
  induction k with
  | zero => intro tr; simp [cleanupRuns]
  | succ k ih =>
    intro tr
    have hc : cleanup w base tr = (.ok (), tr ++ [.readDir base true]) := by
      simp [cleanup, hempty tr, cleanupLoop]
    simp only [cleanupRuns, hc, ih, List.replicate_succ, List.append_assoc,
      List.singleton_append]

/-- C4: for every successful top-level listing of `base_dir`, and whatever
the individual deletions answer, `cleanup` returns success after attempting
the removal of every entry that is not a directory, in listing order, and
starting one goroutine per directory entry, given the index and the path of
that entry, whose body removes that path recursively; with `d` directory
entries that is `d` goroutines and `d` calls of `wg.Add`.  On an empty listing
it does nothing after the listing (no deletion, no goroutine, no log line),
and on a directory that stays empty this holds of every run of any number of
runs in succession. -/
theorem cleanup_dispatches_every_entry (w : World) (base : String) (tr : Trace)
    (files : List DirEntry) (hlist : w.readDir tr base = .ok files) :
    ∃ evs, cleanup w base tr = (.ok (), tr ++ .readDir base true :: evs) ∧
      evs.filterMap Event.removedPath =
        (files.filter (fun f => !f.isDir)).map (fun f => w.join base f.name) ∧
      evs.filterMap Event.spawned =
        (files.enum.filter (fun x => x.2.isDir)).map (fun x => ⟨x.1, w.join base x.2.name⟩) ∧
      (evs.filterMap Event.spawned).length = (files.filter (fun f => f.isDir)).length ∧
      (evs.filter (fun e => decide (e = .wgAdd))).length =
        (files.filter (fun f => f.isDir)).length ∧
      (∀ (d : Deleter) (h : Trace), ∃ rest,
        deleterBody w d h = h ++ .removeAll d.filePath (w.removeAll h d.filePath) :: rest ∧
          ∀ e ∈ rest, e.isPrintf = true ∨ e = .wgDone) ∧
      (files = [] → evs = []) ∧
      ((∀ h, w.readDir h base = .ok []) → ∀ k : Nat,
        cleanupRuns w base k tr =
          (List.replicate k (.ok ()), tr ++ List.replicate k (.readDir base true))) := by
  obtain ⟨evs, h1, h2, h3, h4⟩ := cleanupLoop_summary w base files 0
    (tr ++ [.readDir base true])
  refine ⟨evs, ?_, h2, h3, ?_, h4, ?_, ?_, ?_⟩
  · simp [cleanup, hlist, h1]
  · rw [h3, List.length_map]
    have : ∀ (l : List DirEntry) (i : Nat),
        ((l.enumFrom i).filter (fun x => x.2.isDir)).length =
          (l.filter (fun f => f.isDir)).length := by
      intro l
      induction l with
      | nil => intro i; rfl
      | cons a l ih =>
        intro i
        by_cases ha : a.isDir = true <;> simp [List.enumFrom_cons, List.filter_cons, ha, ih]
    exact this files 0
  · intro d h
    cases hr : w.removeAll h d.filePath with
    | some e =>
      refine ⟨_, by simp only [deleterBody, hr]; rfl, ?_⟩
      intro x hx
      simp only [List.mem_cons, List.mem_singleton, List.not_mem_nil, or_false] at hx
      rcases hx with rfl | rfl | rfl
      · exact Or.inl rfl
      · exact Or.inl rfl
      · exact Or.inr rfl
    | none =>
      refine ⟨_, by simp only [deleterBody, hr]; rfl, ?_⟩
      intro x hx
      simp only [List.mem_cons, List.mem_singleton, List.not_mem_nil, or_false] at hx
      rcases hx with rfl | rfl
      · exact Or.inl rfl
      · exact Or.inr rfl
  · intro hnil
    subst hnil
    simpa [cleanupLoop] using h1
  · intro hempty k
    exact cleanupRuns_empty w base hempty k tr

/-- C4 at a filesystem that refuses every removal, where the file `f` is still
attempted and both directories get their goroutine, and at the empty directory
`base/b`, cleaned up three times in succession. -/
theorem cleanup_dispatches_every_entry_witness :
    (∃ evs, cleanup noRemoveWorld "base" [] = (.ok (), [] ++ .readDir "base" true :: evs) ∧
      evs.filterMap Event.removedPath = ["base/f"] ∧
      evs.filterMap Event.spawned = [⟨1, "base/a"⟩, ⟨2, "base/b"⟩]) ∧
    cleanupRuns demoWorld "base/b" 3 [] =
      ([.ok (), .ok (), .ok ()],
        [.readDir "base/b" true, .readDir "base/b" true, .readDir "base/b" true]) := by
  constructor
  · obtain ⟨evs, h1, h2, h3, -⟩ := cleanup_dispatches_every_entry noRemoveWorld "base" []
      [⟨"f", false⟩, ⟨"a", true⟩, ⟨"b", true⟩] rfl
    exact ⟨evs, h1, h2, h3⟩
  · obtain ⟨evs, -, -, -, -, -, -, -, h8⟩ :=
      cleanup_dispatches_every_entry demoWorld "base/b" [] [] rfl
    exact h8 (fun _ => rfl) 3

/-! ## Facts about `main` -/

theorem LoadInv.start {s : MainState} (h : LoadInv s) (t : Task) (ht : t.isLoad = true) :
    LoadInv { s with wg := s.wg + 1, running := s.running ++ [t],
                     log := s.log ++ [.spawn t] } := by
  obtain ⟨h1, h2, h3, h4⟩ := h
  refine ⟨?_, ?_, ?_, ?_⟩
  · intro o ho
    rcases List.mem_append.mp ho with ho | ho
    · exact h1 o ho
    · simp only [List.mem_singleton] at ho
      exact ⟨t, ht, Or.inl ho⟩
  · simp only [List.length_append, List.length_singleton, Nat.cast_add, Nat.cast_one]
    omega
  · intro x hx
    rcases List.mem_append.mp hx with hx | hx
    · exact h3 x hx
    · simp only [List.mem_singleton] at hx
      rw [hx]
      exact ht
  · intro x hx
    rcases List.mem_append.mp hx with hx | hx
    · rcases h4 x hx with h5 | h5
      · exact Or.inl (List.mem_append_left _ h5)
      · exact Or.inr (List.mem_append_left _ h5)
    · simp only [List.mem_singleton, Obs.spawn.injEq] at hx
      subst hx
      exact Or.inl (by simp)

theorem mem_eraseIdx_of_ne {α : Type} (l : List α) (i : Nat) (x y : α)
    (hi : l[i]? = some y) (hx : x ∈ l) (hne : x ≠ y) : x ∈ l.eraseIdx i := by
  induction l generalizing i with
  | nil => cases hx
  | cons a l ih =>
    cases i with
    | zero =>
      simp only [List.getElem?_cons_zero, Option.some.injEq] at hi
      subst hi
      rcases List.mem_cons.mp hx with rfl | hx
      · exact absurd rfl hne
      · simpa using hx
    | succ i =>
      simp only [List.getElem?_cons_succ] at hi
      simp only [List.eraseIdx_cons_succ, List.mem_cons]
      rcases List.mem_cons.mp hx with rfl | hx
      · exact Or.inl rfl
      · exact Or.inr (ih i hi hx)

theorem mem_of_mem_eraseIdx {α : Type} (l : List α) (i : Nat) (x : α)
    (hx : x ∈ l.eraseIdx i) : x ∈ l := by
  induction l generalizing i with
  | nil => simp at hx
  | cons a l ih =>
    cases i with
    | zero =>
      simp only [List.eraseIdx_cons_zero] at hx
      exact List.mem_cons_of_mem _ hx
    | succ i =>
      simp only [List.eraseIdx_cons_succ, List.mem_cons] at hx
      rcases hx with rfl | hx
      · exact List.mem_cons_self _ _
      · exact List.mem_cons_of_mem _ (ih i hx)

theorem LoadInv.task_done {s : MainState} (h : LoadInv s) (i : Nat) (t : Task)
    (hi : s.running[i]? = some t) :
    LoadInv { s with wg := s.wg - 1, running := s.running.eraseIdx i,
                     log := s.log ++ [.done t] } := by
  obtain ⟨h1, h2, h3, h4⟩ := h
  have hlt : i < s.running.length := by
    by_contra hge
    rw [List.getElem?_eq_none (Nat.le_of_not_lt hge)] at hi
    cases hi
  have hmem : t ∈ s.running := List.getElem?_mem hi
  refine ⟨?_, ?_, ?_, ?_⟩
  · intro o ho
    rcases List.mem_append.mp ho with ho | ho
    · exact h1 o ho
    · simp only [List.mem_singleton] at ho
      exact ⟨t, h3 t hmem, Or.inr ho⟩
  · simp only [List.length_eraseIdx, hlt, if_true]
    omega
  · intro x hx
    exact h3 x (mem_of_mem_eraseIdx _ _ _ hx)
  · intro x hx
    rcases List.mem_append.mp hx with hx | hx
    · rcases h4 x hx with h5 | h5
      · by_cases hxt : x = t
        · subst hxt
          exact Or.inr (by simp)
        · exact Or.inl (mem_eraseIdx_of_ne _ i x t hi h5 hxt)
      · exact Or.inr (List.mem_append_left _ h5)
    · simp at hx

theorem CleanupInv.deleter_done {fl : Flags} {s : MainState} (h : CleanupInv fl s) (i : Nat)
    (t : Task) (hi : s.running[i]? = some t) (pc : Pc) :
    CleanupInv fl { s with pc := pc, wg := s.wg - 1, running := s.running.eraseIdx i,
                           log := s.log ++ [.done t] } := by
  obtain ⟨h1, h2, a, b, h3, h4, h5, h6, h7⟩ := h
  obtain ⟨d, rfl⟩ := h2 t (List.getElem?_mem hi)
  refine ⟨h1, ?_, a, b ++ [.done (.deleter d)], ?_, h4, h5, h6, ?_⟩
  · intro x hx
    exact h2 x (mem_of_mem_eraseIdx _ _ _ hx)
  · simp [h3]
  · intro o ho
    rcases List.mem_append.mp ho with ho | ho
    · exact h7 o ho
    · simp only [List.mem_singleton] at ho
      exact ⟨d, Or.inr ho⟩

theorem CleanupInv.start_deleter {fl : Flags} {s : MainState} (h : CleanupInv fl s) (d : Deleter)
    (pc : Pc) :
    CleanupInv fl { s with pc := pc, running := s.running ++ [.deleter d],
                           log := s.log ++ [.spawn (.deleter d)] } := by
  obtain ⟨h1, h2, a, b, h3, h4, h5, h6, h7⟩ := h
  refine ⟨h1, ?_, a, b ++ [.spawn (.deleter d)], ?_, h4, h5, h6, ?_⟩
  · intro x hx
    rcases List.mem_append.mp hx with hx | hx
    · exact h2 x hx
    · simp only [List.mem_singleton] at hx
      exact ⟨d, hx⟩
  · simp [h3]
  · intro o ho
    rcases List.mem_append.mp ho with ho | ho
    · exact h7 o ho
    · simp only [List.mem_singleton] at ho
      exact ⟨d, Or.inl ho⟩

theorem inv_initial (fl : Flags) : Inv fl MainState.initial := by
  simp only [Inv, MainState.initial, LoadInv, LoadLog]
  simp

/-- A step of the main goroutine keeps the invariant. -/
theorem inv_mainStep (fl : Flags) (w : World) (s s1 : MainState) (h : Inv fl s)
    (hs : mainStep fl w s = some s1) : Inv fl s1 := by
  obtain ⟨pc, wg, running, log⟩ := s
  cases pc with
  | startWriters i =>
    simp only [Inv] at h
    obtain ⟨h1, h2⟩ := h
    by_cases hi : (i : Int) < fl.numWriters
    · simp only [mainStep, hi, if_true, Option.some.injEq] at hs
      subst hs
      simp only [Inv]
      refine ⟨h1.start (.writer i) rfl, ?_⟩
      intro j hj
      by_cases hji : j = i
      · subst hji
        simp
      · exact List.mem_append_left _ (h2 j (by omega))
    · simp only [mainStep, hi, if_false, Option.some.injEq] at hs
      subst hs
      simp only [Inv]
      refine ⟨h1, ?_, ?_⟩
      · intro j hj
        exact h2 j (by omega)
      · intro j hj
        omega
  | startReaders i =>
    simp only [Inv] at h
    obtain ⟨h1, h2, h3⟩ := h
    by_cases hi : (i : Int) < fl.numReaders
    · simp only [mainStep, hi, if_true, Option.some.injEq] at hs
      subst hs
      simp only [Inv]
      refine ⟨h1.start (.reader i) rfl, ?_, ?_⟩
      · intro j hj
        exact List.mem_append_left _ (h2 j hj)
      · intro j hj
        by_cases hji : j = i
        · subst hji
          simp
        · exact List.mem_append_left _ (h3 j (by omega))
    · simp only [mainStep, hi, if_false, Option.some.injEq] at hs
      subst hs
      simp only [Inv]
      exact ⟨h1, h2, fun j hj => h3 j (by omega)⟩
  | waitLoad =>
    simp only [Inv] at h
    obtain ⟨⟨h1, h2, h3, h4⟩, h5⟩ := h
    by_cases hz : wg = 0
    · simp only [mainStep, hz, if_true, Option.some.injEq] at hs
      subst hs
      simp only at h2
      have hrun : running = [] := by
        apply List.eq_nil_of_length_eq_zero
        omega
      subst hrun
      simp only [Inv]
      refine ⟨trivial, log, rfl, h1, h5, ?_⟩
      intro t ht
      rcases h4 t ht with h6 | h6
      · cases h6
      · exact h6
    · simp [mainStep, hz] at hs
  | checkDelete =>
    simp only [Inv] at h
    obtain ⟨h1, a, h2, h3, h4, h5⟩ := h
    subst h1 h2
    by_cases hd : fl.deleteFiles = true
    · simp only [mainStep, hd, Bool.not_true, Bool.false_eq_true, if_false,
        Option.some.injEq] at hs
      subst hs
      simp only [Inv, CleanupInv]
      exact ⟨hd, by simp, a, [], by simp, h3, h4, h5, by simp [DelLog]⟩
    · simp only [Bool.not_eq_true] at hd
      simp only [mainStep, hd, Bool.not_false, if_true, Option.some.injEq] at hs
      subst hs
      simp only [Inv]
      exact Or.inl ⟨hd, a, by simp, h3, h4, h5⟩
  | inCleanup pending =>
    simp only [Inv] at h
    cases pending with
    | nil =>
      simp only [mainStep, Option.some.injEq] at hs
      subst hs
      exact h
    | cons e pending =>
      cases e <;> simp only [mainStep, Option.some.injEq] at hs <;> subst hs <;>
        simp only [Inv]
      case goDeleter d => exact h.start_deleter d _
      all_goals exact h
  | waitDeleters =>
    simp only [Inv] at h
    obtain ⟨h1, h2, a, b, h3, h4, h5, h6, h7⟩ := h
    by_cases hz : wg = 0
    · simp only [mainStep, hz, if_true, Option.some.injEq] at hs
      subst hs
      simp only [Inv]
      simp only at h3
      exact Or.inr ⟨h1, a, b, by simp [h3], h4, h5, h6, h7⟩
    · simp [mainStep, hz] at hs
  | exited => simp [mainStep] at hs

/-- Every step of the process keeps the invariant. -/
theorem inv_step (fl : Flags) (w : World) (s s1 : MainState) (a : Action) (h : Inv fl s)
    (hs : step fl w s a = some s1) : Inv fl s1 := by
  cases a with
  | main => exact inv_mainStep fl w s s1 h hs
  | finish i =>
    obtain ⟨pc, wg, running, log⟩ := s
    simp only [step] at hs
    by_cases hex : pc = .exited
    · simp [hex] at hs
    · simp only [hex, if_false] at hs
      cases hr : running[i]? with
      | none => simp [hr] at hs
      | some t =>
        simp only [hr, Option.some.injEq] at hs
        subst hs
        cases pc with
        | startWriters j =>
          simp only [Inv] at h ⊢
          exact ⟨h.1.task_done i t hr, fun k hk => List.mem_append_left _ (h.2 k hk)⟩
        | startReaders j =>
          simp only [Inv] at h ⊢
          exact ⟨h.1.task_done i t hr, fun k hk => List.mem_append_left _ (h.2.1 k hk),
            fun k hk => List.mem_append_left _ (h.2.2 k hk)⟩
        | waitLoad =>
          simp only [Inv] at h ⊢
          exact ⟨h.1.task_done i t hr, fun k hk => List.mem_append_left _ (h.2.1 k hk),
            fun k hk => List.mem_append_left _ (h.2.2 k hk)⟩
        | checkDelete =>
          simp only [Inv] at h
          obtain ⟨h1, -⟩ := h
          subst h1
          simp at hr
        | inCleanup pending =>
          simp only [Inv] at h ⊢
          exact h.deleter_done i t hr _
        | waitDeleters =>
          simp only [Inv] at h ⊢
          exact h.deleter_done i t hr _
        | exited => exact absurd rfl hex

/-- Every state a schedule reaches from a state with the invariant has it. -/
theorem inv_run (fl : Flags) (w : World) :
    ∀ (acts : List Action) (s s1 : MainState), Inv fl s → run fl w acts s = some s1 →
      Inv fl s1 := by
  intro acts
  induction acts with
  | nil =>
    intro s s1 h hs
    simp only [run, Option.some.injEq] at hs
    subst hs
    exact h
  | cons a rest ih =>
    intro s s1 h hs
    simp only [run] at hs
    cases hst : step fl w s a with
    | none => simp [hst] at hs
    | some s2 =>
      simp only [hst] at hs
      exact ih s2 s1 (inv_step fl w s s2 a h hst) hs

/-- An element found in `p ++ c` but not in `p` is found in `c`. -/
theorem split_after_prefix {α : Type} (x : α) :
    ∀ (p c a b : List α), x ∉ p → p ++ c = a ++ x :: b →
      ∃ m, a = p ++ m ∧ c = m ++ x :: b := by
  intro p
  induction p with
  | nil =>
    intro c a b _ h
    exact ⟨a, rfl, by simpa using h⟩
  | cons y p ih =>
    intro c a b hx h
    cases a with
    | nil =>
      simp only [List.cons_append, List.nil_append, List.cons.injEq] at h
      exact absurd (by simp [h.1]) hx
    | cons z a =>
      simp only [List.cons_append, List.cons.injEq] at h
      obtain ⟨m, h1, h2⟩ := ih c a b (fun hm => hx (List.mem_cons_of_mem _ hm)) h.2
      exact ⟨m, by rw [h.1, h1]; rfl, h2⟩

/-- An element that occurs once in a list splits it in one way only. -/
theorem split_unique {α : Type} (x : α) (a b a1 b1 : List α) (ha : x ∉ a) (hb : x ∉ b)
    (h : a ++ x :: b = a1 ++ x :: b1) : a1 = a ∧ b1 = b := by
  obtain ⟨m, h1, h2⟩ := split_after_prefix x a (x :: b) a1 b1 ha h
  cases m with
  | nil =>
    simp only [List.nil_append, List.cons.injEq, true_and] at h2
    exact ⟨by simpa using h1, h2.symm⟩
  | cons y m =>
    simp only [List.cons_append, List.cons.injEq] at h2
    exact absurd (by rw [h2.2]; simp) hb

/-- What a log without a call of `cleanup` and without a deleter gives. -/
theorem no_cleanup_props (fl : Flags) (log : List Obs)
    (h : ∀ o ∈ log, o ≠ Obs.cleanupCalled ∧ ∀ d, o ≠ Obs.spawn (.deleter d)) :
    (Obs.cleanupCalled ∉ log ∧ ∀ d, Obs.spawn (.deleter d) ∉ log) ∧
    (∀ a b, log = a ++ Obs.cleanupCalled :: b →
      fl.deleteFiles = true ∧
      (∃ a0, a = a0 ++ [.waitReturned] ∧ LoadLog a0 ∧ AllStarted fl a0 ∧ AllDone a0) ∧
      (∀ t, Obs.spawn t ∈ b → ∃ d, t = .deleter d) ∧ Obs.cleanupCalled ∉ b) ∧
    (∀ a b d, log = a ++ Obs.spawn (.deleter d) :: b → Obs.cleanupCalled ∈ a) := by
  refine ⟨⟨fun hm => (h _ hm).1 rfl, fun d hm => (h _ hm).2 d rfl⟩, ?_, ?_⟩
  · intro a b hs
    exact absurd rfl (h Obs.cleanupCalled (by rw [hs]; simp)).1
  · intro a b d hs
    exact absurd rfl ((h (Obs.spawn (.deleter d)) (by rw [hs]; simp)).2 d)

theorem LoadLog.no_cleanup {a : List Obs} (h : LoadLog a) :
    ∀ o ∈ a, o ≠ Obs.cleanupCalled ∧ (∀ d, o ≠ Obs.spawn (.deleter d)) ∧
      o ≠ Obs.waitReturned := by
  intro o ho
  obtain ⟨t, ht, rfl | rfl⟩ := h o ho
  · refine ⟨by simp, ?_, by simp⟩
    intro d hd
    simp only [Obs.spawn.injEq] at hd
    subst hd
    cases ht
  · exact ⟨by simp, by simp, by simp⟩

/-- What a log gives in which the load phase was joined, `cleanup` was then
called, and only deleters, a join and the exit came after. -/
theorem after_cleanup_props (fl : Flags) (log a c : List Obs) (hd : fl.deleteFiles = true)
    (hlog : log = a ++ .waitReturned :: .cleanupCalled :: c)
    (h1 : LoadLog a) (h2 : AllStarted fl a) (h3 : AllDone a)
    (h4 : ∀ o ∈ c, (∃ d : Deleter, o = .spawn (.deleter d) ∨ o = .done (.deleter d)) ∨
      o = .waitReturned ∨ o = .exit) :
    (∀ a1 b1, log = a1 ++ Obs.cleanupCalled :: b1 →
      fl.deleteFiles = true ∧
      (∃ a0, a1 = a0 ++ [.waitReturned] ∧ LoadLog a0 ∧ AllStarted fl a0 ∧ AllDone a0) ∧
      (∀ t, Obs.spawn t ∈ b1 → ∃ d, t = .deleter d) ∧ Obs.cleanupCalled ∉ b1) ∧
    (∀ a1 b1 d, log = a1 ++ Obs.spawn (.deleter d) :: b1 → Obs.cleanupCalled ∈ a1) := by
  have hc : Obs.cleanupCalled ∉ c := by
    intro hm
    rcases h4 _ hm with ⟨d, h | h⟩ | h | h <;> cases h
  have ha : Obs.cleanupCalled ∉ a ++ [Obs.waitReturned] := by
    intro hm
    rcases List.mem_append.mp hm with hm | hm
    · exact (h1.no_cleanup _ hm).1 rfl
    · simp at hm
  have hspawn : ∀ t, Obs.spawn t ∈ c → ∃ d, t = .deleter d := by
    intro t ht
    rcases h4 _ ht with ⟨d, h | h⟩ | h | h
    · simp only [Obs.spawn.injEq] at h
      exact ⟨d, h⟩
    · cases h
    · cases h
    · cases h
  constructor
  · intro a1 b1 hs
    have hlog2 : (a ++ [Obs.waitReturned]) ++ Obs.cleanupCalled :: c =
        a1 ++ Obs.cleanupCalled :: b1 := by
      rw [← hs, hlog]
      simp
    obtain ⟨e1, e2⟩ := split_unique _ _ _ _ _ ha hc hlog2
    subst e1 e2
    exact ⟨hd, ⟨a, rfl, h1, h2, h3⟩, hspawn, hc⟩
  · intro a1 b1 d hs
    have hnp : Obs.spawn (.deleter d) ∉ a ++ [Obs.waitReturned, Obs.cleanupCalled] := by
      intro hm
      rcases List.mem_append.mp hm with hm | hm
      · exact (h1.no_cleanup _ hm).2.1 d rfl
      · simp at hm
    have hlog2 : (a ++ [Obs.waitReturned, Obs.cleanupCalled]) ++ c =
        a1 ++ Obs.spawn (.deleter d) :: b1 := by
      rw [← hs, hlog]
      simp
    obtain ⟨m, e1, -⟩ := split_after_prefix _ _ _ _ _ hnp hlog2
    rw [e1]
    simp

/-! ## The second join -/

theorem Paired.append {a b : Trace} (ha : Paired a) (hb : Paired b) : Paired (a ++ b) := by
  induction ha with
  | nil => exact hb
  | pair d _ ih => exact Paired.pair d ih
  | other h1 h2 _ ih => exact Paired.other h1 h2 ih

/-- The loop of `cleanup` calls `wg.Add(1)` right before each `go` statement
and nowhere else. -/
theorem cleanupLoop_paired (w : World) (base : String) :
    ∀ (files : List DirEntry) (i : Nat) (tr : Trace),
      ∃ evs, cleanupLoop w base files i tr = tr ++ evs ∧ Paired evs := by
  intro files
  induction files with
  | nil =>
    intro i tr
    exact ⟨[], by simp [cleanupLoop], Paired.nil⟩
  | cons f rest ih =>
    intro i tr
    by_cases hf : f.isDir = true
    · obtain ⟨evs, h1, h2⟩ := ih (i + 1) (tr ++ [.wgAdd, .goDeleter ⟨i, w.join base f.name⟩])
      exact ⟨.wgAdd :: .goDeleter ⟨i, w.join base f.name⟩ :: evs,
        by simp [cleanupLoop, hf, h1], Paired.pair _ h2⟩
    · simp only [Bool.not_eq_true] at hf
      cases hr : w.remove tr (w.join base f.name) with
      | some e =>
        obtain ⟨evs, h1, h2⟩ := ih (i + 1)
          (tr ++ [.remove (w.join base f.name) (some e),
            .printf "failed to delete file %q" [w.join base f.name]])
        refine ⟨.remove (w.join base f.name) (some e) ::
          .printf "failed to delete file %q" [w.join base f.name] :: evs, ?_, ?_⟩
        · simp [cleanupLoop, hf, hr, h1]
        · exact Paired.other (by simp) (by simp) (Paired.other (by simp) (by simp) h2)
      | none =>
        obtain ⟨evs, h1, h2⟩ := ih (i + 1) (tr ++ [.remove (w.join base f.name) none])
        refine ⟨.remove (w.join base f.name) none :: evs, ?_, ?_⟩
        · simp [cleanupLoop, hf, hr, h1]
        · exact Paired.other (by simp) (by simp) h2

/-- The calls of `cleanup`, from its start. -/
theorem cleanup_paired (w : World) (base : String) : Paired (cleanup w base []).2 := by
  cases hl : w.readDir [] base with
  | error e =>
    simp only [cleanup, hl]
    exact Paired.other (by simp) (by simp) Paired.nil
  | ok files =>
    obtain ⟨evs, h1, h2⟩ := cleanupLoop_paired w base files 0 ([] ++ [.readDir base true])
    simp only [cleanup, hl, h1]
    exact Paired.append (Paired.other (by simp) (by simp) Paired.nil) h2

theorem joinInv_initial (fl : Flags) (w : World) : JoinInv fl w MainState.initial := by
  simp [JoinInv, MainState.initial]

/-- A step of the main goroutine keeps the invariant of the second join. -/
theorem joinInv_mainStep (fl : Flags) (w : World) (s s1 : MainState) (hi : Inv fl s)
    (hj : JoinInv fl w s) (hs : mainStep fl w s = some s1) : JoinInv fl w s1 := by
  obtain ⟨pc, wg, running, log⟩ := s
  cases pc with
  | startWriters i =>
    by_cases hc : (i : Int) < fl.numWriters
    · simp only [mainStep, hc, if_true, Option.some.injEq] at hs
      subst hs
      simp [JoinInv]
    · simp only [mainStep, hc, if_false, Option.some.injEq] at hs
      subst hs
      simp [JoinInv]
  | startReaders i =>
    by_cases hc : (i : Int) < fl.numReaders
    · simp only [mainStep, hc, if_true, Option.some.injEq] at hs
      subst hs
      simp [JoinInv]
    · simp only [mainStep, hc, if_false, Option.some.injEq] at hs
      subst hs
      simp [JoinInv]
  | waitLoad =>
    simp only [Inv] at hi
    obtain ⟨⟨h1, h2, -, -⟩, -⟩ := hi
    by_cases hz : wg = 0
    · simp only [mainStep, hz, if_true, Option.some.injEq] at hs
      subst hs
      have h3 : wg = (running.length : Int) := h2
      have hrun : running = [] := by
        apply List.eq_nil_of_length_eq_zero
        omega
      simp only [JoinInv]
      refine ⟨trivial, hrun, ?_⟩
      intro d hm
      rcases List.mem_append.mp hm with hm | hm
      · exact (h1.no_cleanup _ hm).2.1 d rfl
      · simp at hm
    · simp [mainStep, hz] at hs
  | checkDelete =>
    simp only [JoinInv] at hj
    obtain ⟨j1, j2, j3⟩ := hj
    by_cases hd : fl.deleteFiles = true
    · simp only [mainStep, hd, Bool.not_true, Bool.false_eq_true, if_false,
        Option.some.injEq] at hs
      subst hs
      simp only [JoinInv]
      refine ⟨?_, Or.inl ⟨cleanup_paired w fl.testPath, ?_⟩, fun d hm => Or.inl hm⟩
      · intro d hm
        rcases List.mem_append.mp hm with hm | hm
        · exact absurd hm (j3 d)
        · simp at hm
      · rw [j1, j2]
        rfl
    · simp only [Bool.not_eq_true] at hd
      simp only [mainStep, hd, Bool.not_false, if_true, Option.some.injEq] at hs
      subst hs
      simp only [JoinInv]
      intro h
      rw [hd] at h
      cases h
  | inCleanup pending =>
    simp only [JoinInv] at hj
    obtain ⟨j1, j2, j3⟩ := hj
    cases pending with
    | nil =>
      simp only [mainStep, Option.some.injEq] at hs
      subst hs
      simp only [JoinInv]
      refine ⟨j1, ?_, ?_⟩
      · rcases j2 with ⟨-, h⟩ | ⟨d, rest, h, -, -⟩
        · exact h
        · cases h
      · intro d hm
        rcases j3 d hm with h | h
        · cases h
        · exact h
    | cons e pending =>
      rcases j2 with ⟨hp, hc⟩ | ⟨d, rest, hp, hq, hc⟩
      · cases hp with
        | pair d hrest =>
          simp only [mainStep, Option.some.injEq] at hs
          subst hs
          simp only [JoinInv]
          refine ⟨j1, Or.inr ⟨d, _, rfl, hrest, ?_⟩, ?_⟩
          · omega
          · intro d1 hm
            rcases j3 d1 hm with h | h
            · simp only [List.mem_cons] at h
              rcases h with h | h
              · cases h
              · exact Or.inl (List.mem_cons.mpr h)
            · exact Or.inr h
        | other h1 h2 hrest =>
          have hs2 : s1 = ⟨.inCleanup pending, wg, running, log⟩ := by
            cases e <;> simp only [mainStep, Option.some.injEq] at hs
            all_goals first
              | exact hs.symm
              | exact absurd rfl h1
              | exact absurd rfl (h2 _)
          subst hs2
          simp only [JoinInv]
          refine ⟨j1, Or.inl ⟨hrest, hc⟩, ?_⟩
          intro d1 hm
          rcases j3 d1 hm with h | h
          · rcases List.mem_cons.mp h with h | h
            · exact absurd h.symm (h2 d1)
            · exact Or.inl h
          · exact Or.inr h
      · simp only [List.cons.injEq] at hp
        obtain ⟨rfl, rfl⟩ := hp
        simp only [mainStep, Option.some.injEq] at hs
        subst hs
        simp only [JoinInv]
        refine ⟨?_, Or.inl ⟨hq, ?_⟩, ?_⟩
        · intro d1 hm
          rcases List.mem_append.mp hm with hm | hm
          · rcases j1 d1 hm with h | h
            · exact Or.inl (List.mem_append_left _ h)
            · exact Or.inr (List.mem_append_left _ h)
          · simp only [List.mem_singleton, Obs.spawn.injEq, Task.deleter.injEq] at hm
            subst hm
            exact Or.inl (by simp)
        · simp only [List.length_append, List.length_singleton, Nat.cast_add, Nat.cast_one]
            at hc ⊢
          exact hc
        · intro d1 hm
          rcases j3 d1 hm with h | h
          · rcases List.mem_cons.mp h with h | h
            · simp only [Event.goDeleter.injEq] at h
              subst h
              exact Or.inr (by simp)
            · exact Or.inl h
          · exact Or.inr (List.mem_append_left _ h)
  | waitDeleters =>
    simp only [JoinInv] at hj
    obtain ⟨j1, j2, j3⟩ := hj
    by_cases hz : wg = 0
    · simp only [mainStep, hz, if_true, Option.some.injEq] at hs
      subst hs
      have h3 : wg = (running.length : Int) := j2
      have hrun : running = [] := by
        apply List.eq_nil_of_length_eq_zero
        omega
      subst hrun
      simp only [JoinInv]
      intro _
      refine ⟨trivial, trivial, fun d hm => List.mem_append_left _ (j3 d hm), ?_⟩
      intro d hm
      rcases List.mem_append.mp hm with hm | hm
      · rcases j1 d hm with h | h
        · cases h
        · exact List.mem_append_left _ h
      · simp at hm
    · simp [mainStep, hz] at hs
  | exited => simp [mainStep] at hs

/-- The end of a goroutine keeps the tracking of the deleters. -/
theorem DelTracked.task_finished {s : MainState} (h : DelTracked s) (i : Nat) (t : Task)
    (hi : s.running[i]? = some t) (pc : Pc) :
    DelTracked { s with pc := pc, wg := s.wg - 1, running := s.running.eraseIdx i,
                        log := s.log ++ [.done t] } := by
  intro d hm
  rcases List.mem_append.mp hm with hm | hm
  · rcases h d hm with h1 | h1
    · by_cases hdt : Task.deleter d = t
      · subst hdt
        exact Or.inr (by simp)
      · exact Or.inl (mem_eraseIdx_of_ne _ i _ t hi h1 hdt)
    · exact Or.inr (List.mem_append_left _ h1)
  · simp at hm

/-- Every step of the process keeps the invariant of the second join. -/
theorem joinInv_step (fl : Flags) (w : World) (s s1 : MainState) (a : Action)
    (hi : Inv fl s) (hj : JoinInv fl w s) (hs : step fl w s a = some s1) :
    JoinInv fl w s1 := by
  cases a with
  | main => exact joinInv_mainStep fl w s s1 hi hj hs
  | finish i =>
    obtain ⟨pc, wg, running, log⟩ := s
    simp only [step] at hs
    by_cases hex : pc = .exited
    · simp [hex] at hs
    · simp only [hex, if_false] at hs
      cases hr : running[i]? with
      | none => simp [hr] at hs
      | some t =>
        simp only [hr, Option.some.injEq] at hs
        subst hs
        have hlt : i < running.length := by
          by_contra hge
          rw [List.getElem?_eq_none (Nat.le_of_not_lt hge)] at hr
          cases hr
        cases pc with
        | startWriters j => simp [JoinInv]
        | startReaders j => simp [JoinInv]
        | waitLoad => simp [JoinInv]
        | checkDelete =>
          simp only [JoinInv] at hj
          obtain ⟨-, j2, -⟩ := hj
          subst j2
          simp at hr
        | inCleanup pending =>
          simp only [JoinInv] at hj ⊢
          obtain ⟨j1, j2, j3⟩ := hj
          refine ⟨j1.task_finished i t hr _, ?_, ?_⟩
          · rcases j2 with ⟨hp, hc⟩ | ⟨d, rest, hp, hq, hc⟩
            · left
              refine ⟨hp, ?_⟩
              simp only [List.length_eraseIdx, hlt, if_true] at hc ⊢
              omega
            · right
              refine ⟨d, rest, hp, hq, ?_⟩
              simp only [List.length_eraseIdx, hlt, if_true] at hc ⊢
              omega
          · intro d hm
            rcases j3 d hm with h | h
            · exact Or.inl h
            · exact Or.inr (List.mem_append_left _ h)
        | waitDeleters =>
          simp only [JoinInv] at hj ⊢
          obtain ⟨j1, j2, j3⟩ := hj
          refine ⟨j1.task_finished i t hr _, ?_, fun d hm => List.mem_append_left _ (j3 d hm)⟩
          simp only [List.length_eraseIdx, hlt, if_true] at j2 ⊢
          omega
        | exited => exact absurd rfl hex

/-- Every state a schedule reaches from the start has both invariants. -/
theorem invs_run (fl : Flags) (w : World) :
    ∀ (acts : List Action) (s s1 : MainState), Inv fl s → JoinInv fl w s →
      run fl w acts s = some s1 → Inv fl s1 ∧ JoinInv fl w s1 := by
  intro acts
  induction acts with
  | nil =>
    intro s s1 h hj hs
    simp only [run, Option.some.injEq] at hs
    subst hs
    exact ⟨h, hj⟩
  | cons a rest ih =>
    intro s s1 h hj hs
    simp only [run] at hs
    cases hst : step fl w s a with
    | none => simp [hst] at hs
    | some s2 =>
      simp only [hst] at hs
      exact ih s2 s1 (inv_step fl w s s2 a h hst) (joinInv_step fl w s s2 a h hj hst) hs

/-- What the observations of every reachable state give: no call of `cleanup`
and no deleter without the flag; the call of `cleanup` right after the return
of the first `wg.Wait()`, the load phase complete before it; deleters after
the call only; the return of a second `wg.Wait()` before the exit. -/
theorem main_log_props (fl : Flags) (w : World) (acts : List Action) (s : MainState)
    (hrun : run fl w acts MainState.initial = some s) :
    (fl.deleteFiles = false →
      Obs.cleanupCalled ∉ s.log ∧ ∀ d, Obs.spawn (.deleter d) ∉ s.log) ∧
    (∀ a b, s.log = a ++ Obs.cleanupCalled :: b →
      fl.deleteFiles = true ∧
      (∃ a0, a = a0 ++ [.waitReturned] ∧ LoadLog a0 ∧ AllStarted fl a0 ∧ AllDone a0) ∧
      (∀ t, Obs.spawn t ∈ b → ∃ d, t = .deleter d) ∧ Obs.cleanupCalled ∉ b) ∧
    (∀ a b d, s.log = a ++ Obs.spawn (.deleter d) :: b → Obs.cleanupCalled ∈ a) ∧
    (s.pc = .exited → fl.deleteFiles = true →
      ∃ a b, s.log = a ++ Obs.cleanupCalled :: (b ++ [.waitReturned, .exit]) ∧
        Obs.cleanupCalled ∉ b) ∧
    (Obs.cleanupCalled ∈ s.log →
      (∃ p, s.pc = .inCleanup p) ∨ s.pc = .waitDeleters ∨ s.pc = .exited) := by
  have hinv := inv_run fl w acts _ s (inv_initial fl) hrun
  obtain ⟨pc, wg, running, log⟩ := s
  have quiet : (∀ o ∈ log, o ≠ Obs.cleanupCalled ∧ ∀ d, o ≠ Obs.spawn (.deleter d)) →
      pc ≠ .exited ∨ fl.deleteFiles = false →
      (fl.deleteFiles = false →
        Obs.cleanupCalled ∉ log ∧ ∀ d, Obs.spawn (.deleter d) ∉ log) ∧
      (∀ a b, log = a ++ Obs.cleanupCalled :: b →
        fl.deleteFiles = true ∧
        (∃ a0, a = a0 ++ [.waitReturned] ∧ LoadLog a0 ∧ AllStarted fl a0 ∧ AllDone a0) ∧
        (∀ t, Obs.spawn t ∈ b → ∃ d, t = .deleter d) ∧ Obs.cleanupCalled ∉ b) ∧
      (∀ a b d, log = a ++ Obs.spawn (.deleter d) :: b → Obs.cleanupCalled ∈ a) ∧
      (pc = .exited → fl.deleteFiles = true →
        ∃ a b, log = a ++ Obs.cleanupCalled :: (b ++ [.waitReturned, .exit]) ∧
          Obs.cleanupCalled ∉ b) ∧
      (Obs.cleanupCalled ∈ log →
        (∃ p, pc = .inCleanup p) ∨ pc = .waitDeleters ∨ pc = .exited) := by
    intro hq hpc
    obtain ⟨q1, q2, q3⟩ := no_cleanup_props fl log hq
    refine ⟨fun _ => q1, q2, q3, ?_, fun hm => absurd hm q1.1⟩
    intro h1 h2
    rcases hpc with hpc | hpc
    · exact absurd h1 hpc
    · rw [h2] at hpc
      cases hpc
  have busy : ∀ (a c : List Obs), fl.deleteFiles = true →
      log = a ++ .waitReturned :: .cleanupCalled :: c →
      LoadLog a → AllStarted fl a → AllDone a →
      (∀ o ∈ c, (∃ d : Deleter, o = .spawn (.deleter d) ∨ o = .done (.deleter d)) ∨
        o = .waitReturned ∨ o = .exit) →
      (pc = .exited → ∃ b, c = b ++ [.waitReturned, .exit] ∧ Obs.cleanupCalled ∉ b) →
      ((∃ p, pc = .inCleanup p) ∨ pc = .waitDeleters ∨ pc = .exited) →
      (fl.deleteFiles = false →
        Obs.cleanupCalled ∉ log ∧ ∀ d, Obs.spawn (.deleter d) ∉ log) ∧
      (∀ a b, log = a ++ Obs.cleanupCalled :: b →
        fl.deleteFiles = true ∧
        (∃ a0, a = a0 ++ [.waitReturned] ∧ LoadLog a0 ∧ AllStarted fl a0 ∧ AllDone a0) ∧
        (∀ t, Obs.spawn t ∈ b → ∃ d, t = .deleter d) ∧ Obs.cleanupCalled ∉ b) ∧
      (∀ a b d, log = a ++ Obs.spawn (.deleter d) :: b → Obs.cleanupCalled ∈ a) ∧
      (pc = .exited → fl.deleteFiles = true →
        ∃ a b, log = a ++ Obs.cleanupCalled :: (b ++ [.waitReturned, .exit]) ∧
          Obs.cleanupCalled ∉ b) ∧
      (Obs.cleanupCalled ∈ log →
        (∃ p, pc = .inCleanup p) ∨ pc = .waitDeleters ∨ pc = .exited) := by
    intro a c hd hlog h1 h2 h3 h4 h5 h6
    obtain ⟨p1, p2⟩ := after_cleanup_props fl log a c hd hlog h1 h2 h3 h4
    refine ⟨fun hf => ?_, p1, p2, ?_, fun _ => h6⟩
    · rw [hd] at hf
      cases hf
    · intro hpc _
      obtain ⟨b, hb1, hb2⟩ := h5 hpc
      exact ⟨a ++ [.waitReturned], b, by rw [hlog, hb1]; simp, hb2⟩
  have delTail : ∀ b : List Obs, DelLog b →
      ∀ o ∈ b, (∃ d : Deleter, o = .spawn (.deleter d) ∨ o = .done (.deleter d)) ∨
        o = .waitReturned ∨ o = .exit := fun b hb o ho => Or.inl (hb o ho)
  cases pc with
  | startWriters i =>
    simp only [Inv] at hinv
    exact quiet (fun o ho => ⟨(hinv.1.1.no_cleanup o ho).1, (hinv.1.1.no_cleanup o ho).2.1⟩)
      (Or.inl (by simp))
  | startReaders i =>
    simp only [Inv] at hinv
    exact quiet (fun o ho => ⟨(hinv.1.1.no_cleanup o ho).1, (hinv.1.1.no_cleanup o ho).2.1⟩)
      (Or.inl (by simp))
  | waitLoad =>
    simp only [Inv] at hinv
    exact quiet (fun o ho => ⟨(hinv.1.1.no_cleanup o ho).1, (hinv.1.1.no_cleanup o ho).2.1⟩)
      (Or.inl (by simp))
  | checkDelete =>
    simp only [Inv] at hinv
    obtain ⟨-, a, h2, h3, -, -⟩ := hinv
    refine quiet ?_ (Or.inl (by simp))
    intro o ho
    rw [h2] at ho
    rcases List.mem_append.mp ho with ho | ho
    · exact ⟨(h3.no_cleanup o ho).1, (h3.no_cleanup o ho).2.1⟩
    · simp only [List.mem_singleton] at ho
      subst ho
      exact ⟨by simp, by simp⟩
  | inCleanup pending =>
    simp only [Inv] at hinv
    obtain ⟨h1, -, a, b, h3, h4, h5, h6, h7⟩ := hinv
    exact busy a b h1 h3 h4 h5 h6 (delTail b h7) (fun h => by cases h)
      (Or.inl ⟨pending, rfl⟩)
  | waitDeleters =>
    simp only [Inv] at hinv
    obtain ⟨h1, -, a, b, h3, h4, h5, h6, h7⟩ := hinv
    exact busy a b h1 h3 h4 h5 h6 (delTail b h7) (fun h => by cases h)
      (Or.inr (Or.inl rfl))
  | exited =>
    simp only [Inv] at hinv
    rcases hinv with ⟨h1, a, h2, h3, -, -⟩ | ⟨h1, a, b, h3, h4, h5, h6, h7⟩
    · refine quiet ?_ (Or.inr h1)
      intro o ho
      rw [h2] at ho
      rcases List.mem_append.mp ho with ho | ho
      · exact ⟨(h3.no_cleanup o ho).1, (h3.no_cleanup o ho).2.1⟩
      · simp only [List.mem_cons, List.mem_singleton, List.not_mem_nil, or_false] at ho
        rcases ho with rfl | rfl <;> exact ⟨by simp, by simp⟩
    · refine busy a (b ++ [.waitReturned, .exit]) h1 h3 h4 h5 h6 ?_ ?_ (Or.inr (Or.inr rfl))
      · intro o ho
        rcases List.mem_append.mp ho with ho | ho
        · exact Or.inl (h7 o ho)
        · simp only [List.mem_cons, List.mem_singleton, List.not_mem_nil, or_false] at ho
          exact Or.inr ho
      · intro _
        refine ⟨b, rfl, ?_⟩
        intro hm
        rcases h7 _ hm with ⟨d, h | h⟩ <;> cases h

/-- C9: in every state that any schedule of the goroutines reaches, `cleanup`
has not been called when the delete-files flag is false, and no deleter has
been started; wherever the call of `cleanup` stands in the observations, the
flag is true and the call comes right after the return of the first
`wg.Wait()`, before which every writer and every reader asked for was started
and every goroutine started had finished; only deleters are started after the
call, and every start of a deleter comes after it; and once `main` has
returned with the flag true, no goroutine is running, the counter of the
`WaitGroup` is zero, and the observations end with the return of a second
`wg.Wait()` that follows the call of `cleanup`, before which every deleter
that `cleanup` starts was started and every deleter started had finished;
after the call of `cleanup` the main goroutine is inside `cleanup`, at the
second `wg.Wait()`, or has returned. -/
theorem main_cleanup_after_join (fl : Flags) (w : World) (acts : List Action) (s : MainState)
    (hrun : run fl w acts MainState.initial = some s) :
    (fl.deleteFiles = false →
      Obs.cleanupCalled ∉ s.log ∧ ∀ d, Obs.spawn (.deleter d) ∉ s.log) ∧
    (∀ a b, s.log = a ++ Obs.cleanupCalled :: b →
      fl.deleteFiles = true ∧
      (∃ a0, a = a0 ++ [.waitReturned] ∧ LoadLog a0 ∧ AllStarted fl a0 ∧ AllDone a0) ∧
      (∀ t, Obs.spawn t ∈ b → ∃ d, t = .deleter d) ∧ Obs.cleanupCalled ∉ b) ∧
    (∀ a b d, s.log = a ++ Obs.spawn (.deleter d) :: b → Obs.cleanupCalled ∈ a) ∧
    (s.pc = .exited → fl.deleteFiles = true →
      s.running = [] ∧ s.wg = 0 ∧
      ∃ a b, s.log = a ++ Obs.cleanupCalled :: (b ++ [.waitReturned, .exit]) ∧
        Obs.cleanupCalled ∉ b ∧
        (∀ d, Event.goDeleter d ∈ (cleanup w fl.testPath []).2 →
          Obs.spawn (.deleter d) ∈ b) ∧
        (∀ t, Obs.spawn t ∈ b → Obs.done t ∈ b)) ∧
    (Obs.cleanupCalled ∈ s.log →
      (∃ p, s.pc = .inCleanup p) ∨ s.pc = .waitDeleters ∨ s.pc = .exited) := by
  obtain ⟨-, hjoin⟩ := invs_run fl w acts _ s (inv_initial fl) (joinInv_initial fl w) hrun
  obtain ⟨p1, p2, p3, p4, p5⟩ := main_log_props fl w acts s hrun
  refine ⟨p1, p2, p3, ?_, p5⟩
  intro hpc hd
  obtain ⟨a, b, hlog, hcc⟩ := p4 hpc hd
  obtain ⟨-, ⟨a0, ha0, hload, -, -⟩, hdel, -⟩ := p2 a _ hlog
  obtain ⟨pc, wg, running, log⟩ := s
  simp only at hpc hlog
  subst hpc
  simp only [JoinInv] at hjoin
  obtain ⟨j1, j2, j3, j4⟩ := hjoin hd
  have inb : ∀ o : Obs, o ∈ log → (∃ d, o = .spawn (.deleter d) ∨ o = .done (.deleter d)) →
      o ∈ b := by
    intro o ho hod
    rw [hlog, ha0] at ho
    simp only [List.mem_append, List.mem_cons, List.mem_singleton, List.not_mem_nil,
      or_false] at ho
    rcases ho with (ho | ho) | ho | ho | ho | ho
    · obtain ⟨t, ht, h⟩ := hload o ho
      obtain ⟨d, hod | hod⟩ := hod
      · rw [hod] at h
        rcases h with h | h
        · simp only [Obs.spawn.injEq] at h
          rw [← h] at ht
          cases ht
        · cases h
      · rw [hod] at h
        rcases h with h | h
        · cases h
        · simp only [Obs.done.injEq] at h
          rw [← h] at ht
          cases ht
    · obtain ⟨d, hod | hod⟩ := hod <;> rw [hod] at ho <;> cases ho
    · obtain ⟨d, hod | hod⟩ := hod <;> rw [hod] at ho <;> cases ho
    · exact ho
    · obtain ⟨d, hod | hod⟩ := hod <;> rw [hod] at ho <;> cases ho
    · obtain ⟨d, hod | hod⟩ := hod <;> rw [hod] at ho <;> cases ho
  refine ⟨j1, j2, a, b, hlog, hcc, ?_, ?_⟩
  · intro d hm
    exact inb _ (j3 d hm) ⟨d, Or.inl rfl⟩
  · intro t ht
    obtain ⟨d, rfl⟩ := hdel t (List.mem_append_left _ ht)
    have hsp : Obs.spawn (.deleter d) ∈ log := by
      rw [hlog]
      simp [ht]
    exact inb _ (j4 d hsp) ⟨d, Or.inr rfl⟩

/-- C9 at a schedule of one writer, one reader and two deleters that reaches
the return of `main`. -/
theorem main_cleanup_after_join_witness :
    (demoFlags.deleteFiles = false →
      Obs.cleanupCalled ∉ demoLog ∧ ∀ d, Obs.spawn (.deleter d) ∉ demoLog) ∧
    (∀ a b, demoLog = a ++ Obs.cleanupCalled :: b →
      demoFlags.deleteFiles = true ∧
      (∃ a0, a = a0 ++ [.waitReturned] ∧ LoadLog a0 ∧ AllStarted demoFlags a0 ∧
        AllDone a0) ∧
      (∀ t, Obs.spawn t ∈ b → ∃ d, t = .deleter d) ∧ Obs.cleanupCalled ∉ b) ∧
    (∀ a b d, demoLog = a ++ Obs.spawn (.deleter d) :: b → Obs.cleanupCalled ∈ a) ∧
    (Pc.exited = .exited → demoFlags.deleteFiles = true →
      ([] : List Task) = [] ∧ (0 : Int) = 0 ∧
      ∃ a b, demoLog = a ++ Obs.cleanupCalled :: (b ++ [.waitReturned, .exit]) ∧
        Obs.cleanupCalled ∉ b ∧
        (∀ d, Event.goDeleter d ∈ (cleanup demoWorld demoFlags.testPath []).2 →
          Obs.spawn (.deleter d) ∈ b) ∧
        (∀ t, Obs.spawn t ∈ b → Obs.done t ∈ b)) ∧
    (Obs.cleanupCalled ∈ demoLog →
      (∃ p, Pc.exited = .inCleanup p) ∨ Pc.exited = .waitDeleters ∨ Pc.exited = .exited) :=
  main_cleanup_after_join demoFlags demoWorld demoSchedule ⟨.exited, 0, [], demoLog⟩
    (by decide)

end Loadtest
